import Mathlib

/-!
Shallow embedding of the `clad` command line argument parser (`src/mod.ts`).

JavaScript strings are modelled as `List Char` (`JStr`); `toUpperCase` is
modelled on ASCII by `Char.toUpper`.  Maps built with repeated `Map.set`
are modelled by "last writer wins" lookups.  Process exit / printing is
modelled by the `Halt` / `ParseResult` outcome types.
-/

namespace Clad

/-- A JavaScript string, as a list of UTF-16 units. -/
abbrev JStr := List Char

/-- `p.isPrefixOf s` spelled out (JS `String.prototype.startsWith`). -/
def startsWithD : JStr → JStr → Bool
  | [], _ => true
  | _ :: _, [] => false
  | p :: ps, c :: cs => p = c && startsWithD ps cs

/-- First index of `'='` in a string, JS `s.indexOf("=")` (none for `-1`). -/
def idxOfEq : JStr → Option Nat
  | [] => none
  | c :: cs => if c = '=' then some 0 else (idxOfEq cs).map (· + 1)

/-- First index in a list satisfying `p` (JS iterator `find`, by index). -/
def findIdxD {α : Type} (p : α → Bool) : List α → Option Nat
  | [] => none
  | a :: as => if p a then some 0 else (findIdxD p as).map (· + 1)

/-- First element satisfying `p` (the source's `find` helper, `mod.ts:482`). -/
def findD {α : Type} (p : α → Bool) : List α → Option α
  | [] => none
  | a :: as => if p a then some a else findD p as

/-- Last element satisfying `p`; models the final value a key has after a
sequence of JS `Map.set` calls in list order. -/
def lastMatch {α : Type} (p : α → Bool) : List α → Option α
  | [] => none
  | a :: as =>
    match lastMatch p as with
    | some r => some r
    | none => if p a then some a else none

/-- Replace the element at index `i` by `f` of it (in-place JS mutation). -/
def updAt {α : Type} (i : Nat) (f : α → α) : List α → List α
  | [] => []
  | x :: xs =>
    match i with
    | 0 => f x :: xs
    | j + 1 => x :: updAt j f xs

/-- JS `String.prototype.toUpperCase`, restricted to ASCII. -/
def jsToUpper (s : JStr) : JStr := s.map Char.toUpper

/-- JS array-to-string conversion `${arr}`: elements joined by commas. -/
def joinComma : List JStr → JStr
  | [] => []
  | [s] => s
  | s :: rest => s ++ ',' :: joinComma rest

/-- The token `--`. -/
def ddTok : JStr := "--".toList

/-! ## Data model (`Arg`, `ArgState`, `mod.ts:7-54`) -/

/-- A raw argument spec, `interface Arg` of `mod.ts:7`.  Absent optional JS
fields are the listed defaults (`undefined` booleans are falsy, absent
lists behave as empty). -/
structure Arg where
  required : Bool := false
  default : Option JStr := none
  flags : List JStr := []
  possible : List JStr := []
  ignoreCase : Bool := false
  multi : Bool := false
  takesValue : Bool := false
  validate : Option (JStr → Option JStr) := none
  conflicts : List JStr := []
  requires : List JStr := []

/-- `interface ArgState extends Arg` of `mod.ts:48`. -/
structure ArgState where
  key : JStr
  name : JStr
  isPositional : Bool
  occurrences : Nat
  vals : List JStr
  required : Bool
  default : Option JStr
  flags : List JStr
  multi : Bool
  takesValue : Bool
  validate : Option (JStr → Option JStr)
  conflicts : List JStr
  requires : List JStr

/-- Placeholder used for out-of-range table indexing (never reached). -/
def defaultArg : ArgState :=
  { key := [], name := [], isPositional := false, occurrences := 0,
    vals := [], required := false, default := none, flags := [],
    multi := false, takesValue := false, validate := none,
    conflicts := [], requires := [] }

/-- Read the table entry at index `i`. -/
def getAt (tbl : List ArgState) (i : Nat) : ArgState := tbl.getD i defaultArg

/-- The value a key maps to after parsing, `type Value` of `mod.ts:77`. -/
inductive Value : Type
  | count : Nat → Value
  | one : JStr → Value
  | many : List JStr → Value
  | absent : Value
deriving DecidableEq

/-- An abnormal end of `parse`: `#errAndExit` or `#helpAndExit`. -/
inductive Halt : Type
  | err : JStr → Halt
  | help : Bool → Halt
deriving DecidableEq

/-- The outcome of `Command.parse`. -/
inductive ParseResult : Type
  | ok : List (JStr × Value) → ParseResult
  | error : JStr → ParseResult
  | help : Bool → ParseResult
deriving DecidableEq

/-! ## Error messages (exact strings of `mod.ts`) -/

def unexpectedValueMsg (s : JStr) : JStr := "unexpected value ".toList ++ s

def unknownOptionMsg (s : JStr) : JStr :=
  "unknown option `".toList ++ s ++ "`\nif you meant to supply `".toList ++ s
    ++ "` as a value rather than a flag, use `-- ".toList ++ s ++ "`".toList

def needsValueMsg (n : JStr) : JStr :=
  "the argument ".toList ++ n ++ " requires a value but none was supplied".toList

def conflictMsg (n o : JStr) : JStr :=
  n ++ " cannot be used together with ".toList ++ o

def requiresPresentMsg (n o : JStr) : JStr :=
  "using ".toList ++ n ++ " requires ".toList ++ o ++ " to be present".toList

def onceMsg (n : JStr) : JStr := n ++ " can be specified only once".toList

def missingRequiredMsg (n : JStr) : JStr :=
  "missing required value for ".toList ++ n

def failedValidationMsg (v n r : JStr) : JStr :=
  "failed to validate the '".toList ++ v ++ "' value of ".toList ++ n
    ++ ": ".toList ++ r

def posOrderMsg : JStr :=
  "positionals with multiple values are only allowed as the last positional".toList

def emptyFlagMsg (k : JStr) : JStr :=
  "option '".toList ++ k ++ "' contains an empty flag".toList

def conflictMissingMsg (k o : JStr) : JStr :=
  "the arg ".toList ++ k ++ " specifies a conflict with a non-existing argument ".toList ++ o

def conflictSelfMsg (k : JStr) : JStr :=
  "the argument ".toList ++ k ++ " specifies a conflict with itself".toList

def requireMissingMsg (k o : JStr) : JStr :=
  "the arg ".toList ++ k ++ " specifies a non-existing argument (".toList ++ o
    ++ ") as required".toList

def requireSelfMsg (k : JStr) : JStr :=
  "the argument ".toList ++ k ++ " specifies a requirement for itself".toList

def possibleMsg (possible : List JStr) : JStr :=
  "value must be one of ".toList ++ joinComma possible

/-! ## Constructor (`Command.constructor`, `mod.ts:90-168`) -/

/-- The membership validator generated from `possible` (`mod.ts:101-107`). -/
def possibleValidator (possible : List JStr) (ignoreCase : Bool) (s : JStr) :
    Option JStr :=
  let sx := if ignoreCase then jsToUpper s else s
  if possible.any (fun val => sx = (if ignoreCase then jsToUpper val else val))
  then none
  else some (possibleMsg possible)

/-- Strip leading hyphens from a flag alias (`mod.ts:130-134`). -/
def stripFlag (f : JStr) : JStr := f.dropWhile (· = '-')

/-- Look a key up in the raw argument object (`args[other]`). -/
def specLookup (args : List (JStr × Arg)) (k : JStr) : Option Arg :=
  (findD (fun e => e.1 = k) args).map (·.2)

/-- Whether `takesValue` is suffixed with a `<key...>` part. -/
def keyPart (k : JStr) (multi : Bool) : JStr :=
  "<".toList ++ k ++ (if multi then "...".toList else []) ++ ">".toList

/-- `mod.ts:97-108`: a non-empty `possible` forces `takesValue` and
replaces `validate` by the generated membership check. -/
def normPossible (v : Arg) : Arg :=
  if v.possible.isEmpty then v
  else { v with takesValue := true,
                validate := some (possibleValidator v.possible v.ignoreCase) }

/-- `mod.ts:123`: a present `validate` forces `takesValue`. -/
def normValidate (v : Arg) : Arg :=
  if v.validate.isSome then { v with takesValue := true } else v

/-- `mod.ts:124-127`: a present `default` forces `required := false` and
`takesValue := true`. -/
def normDefault (v : Arg) : Arg :=
  match v.default with
  | some _ => { v with required := false, takesValue := true }
  | none => v

/-- The whole spec-normalisation pipeline of one constructor iteration. -/
def normSpec (v : Arg) : Arg := normDefault (normValidate (normPossible v))

/-- The display name of a flagged argument (`mod.ts:141-146`). -/
def flagName (s? l? : Option JStr) (k : JStr) (v3 : Arg) : JStr :=
  (if v3.takesValue then
    (match s?, l? with
     | some s0, some l0 => '-' :: s0 ++ " --".toList ++ l0
     | some s0, none => '-' :: s0
     | none, some l0 => "--".toList ++ l0
     | none, none => []) ++ ' ' :: keyPart k v3.multi
  else
    match s?, l? with
    | some s0, some l0 => '-' :: s0 ++ " --".toList ++ l0
    | some s0, none => '-' :: s0
    | none, some l0 => "--".toList ++ l0
    | none, none => [])

/-- Build the `ArgState` of one entry from its normalised spec
(`mod.ts:128-162`): strip the aliases, classify positional vs flagged,
reject an entry whose aliases are all empty, and compute the name. -/
def mkState (k : JStr) (v3 : Arg) : Except JStr ArgState :=
  if (v3.flags.map stripFlag).isEmpty then
    .ok { key := k, name := keyPart k v3.multi, isPositional := true,
          occurrences := 0, vals := [], required := v3.required,
          default := v3.default, flags := v3.flags.map stripFlag,
          multi := v3.multi, takesValue := true, validate := v3.validate,
          conflicts := v3.conflicts, requires := v3.requires }
  else
    match ((v3.flags.map stripFlag).filter (fun f => f.length = 1)).head?,
        ((v3.flags.map stripFlag).filter (fun f => 1 < f.length)).head? with
    | none, none => .error (emptyFlagMsg k)
    | s?, l? =>
      .ok { key := k, name := flagName s? l? k v3, isPositional := false,
            occurrences := 0, vals := [], required := v3.required,
            default := v3.default, flags := v3.flags.map stripFlag,
            multi := v3.multi, takesValue := v3.takesValue,
            validate := v3.validate, conflicts := v3.conflicts,
            requires := v3.requires }

/-- Process one `[k, v]` entry of the constructor loop (`mod.ts:96-163`),
excluding the positional-order bookkeeping (which depends only on the raw
specs and is done in `posViolation`).  The cross-reference checks read
`conflicts`/`requires`, which the `possible` step never modifies, so they
are checked against the raw spec. -/
def processEntry (args : List (JStr × Arg)) (k : JStr) (v : Arg) :
    Except JStr ArgState :=
  match v.conflicts.findSome? (fun other =>
      if (specLookup args other).isNone then some (conflictMissingMsg k other)
      else if other = k then some (conflictSelfMsg k) else none) with
  | some e => .error e
  | none =>
  match v.requires.findSome? (fun other =>
      if (specLookup args other).isNone then some (requireMissingMsg k other)
      else if k = other then some (requireSelfMsg k) else none) with
  | some e => .error e
  | none => mkState k (normSpec v)

/-- The constructor loop over all entries (first error wins). -/
def buildTableGo (args : List (JStr × Arg)) :
    List (JStr × Arg) → Except JStr (List ArgState)
  | [] => .ok []
  | (k, v) :: rest =>
    match processEntry args k v with
    | .error e => .error e
    | .ok st =>
      match buildTableGo args rest with
      | .error e => .error e
      | .ok tbl => .ok (st :: tbl)

/-- An entry is a positional spec iff its (possibly defaulted) flag list is
empty (`mod.ts:138,147`). -/
def isPositionalSpec (v : Arg) : Bool := v.flags.isEmpty

/-- Index of the first `multi` positional (`firstMultiPositional`). -/
def firstMultiPos (args : List (JStr × Arg)) : Option Nat :=
  findIdxD (fun e => isPositionalSpec e.2 && e.2.multi) args

/-- Index of the last positional (`lastPositional`). -/
def lastPosSpec : List (JStr × Arg) → Option Nat
  | [] => none
  | e :: rest =>
    match lastPosSpec rest with
    | some i => some (i + 1)
    | none => if isPositionalSpec e.2 then some 0 else none

/-- The final positional-ordering check (`mod.ts:165-167`). -/
def posViolation (args : List (JStr × Arg)) : Bool :=
  match firstMultiPos args, lastPosSpec args with
  | some f, some l => f < l
  | _, _ => false

/-- `new Command(appName, args)` (the table part; `appName` is display only). -/
def mkCommand (args : List (JStr × Arg)) : Except JStr (List ArgState) :=
  match buildTableGo args args with
  | .error e => .error e
  | .ok tbl => if posViolation args then .error posOrderMsg else .ok tbl

/-- The table of a successful construction (junk on failure). -/
def mkCommandD (args : List (JStr × Arg)) : List ArgState :=
  match mkCommand args with
  | .ok tbl => tbl
  | .error _ => []

/-- The construction error, if any. -/
def mkCommandErr (args : List (JStr × Arg)) : Option JStr :=
  match mkCommand args with
  | .ok _ => none
  | .error e => some e

/-! ## Alias lookup maps (`#shorts`, `#longs`, `mod.ts:183-201`) -/

/-- Truthiness of `#shorts().get(c)`: the `takesValue` of the last argument
declaring the one-character alias `c` (later `Map.set` wins). -/
def shortsGet (tbl : List ArgState) (c : Char) : Bool :=
  match lastMatch (fun a => a.flags.contains [c]) tbl with
  | some a => a.takesValue
  | none => false

/-- Truthiness of `#longs().get(f)` (aliases of length `> 1` only). -/
def longsGet (tbl : List ArgState) (f : JStr) : Bool :=
  if 1 < f.length then
    match lastMatch (fun a => a.flags.contains f) tbl with
    | some a => a.takesValue
    | none => false
  else false

/-! ## Tokenizer (`Command.#preprocess`, `mod.ts:288-344`) -/

/-- Expansion of one short-flag cluster body (the character loop of
`mod.ts:316-336`): returns the emitted tokens and whether the next input
token must be consumed as a value. -/
def procCluster (sh : Char → Bool) : List Char → List JStr × Bool
  | [] => ([], false)
  | c :: cs =>
    if sh c then
      match cs with
      | [] => ([['-', c]], true)
      | c2 :: cs2 =>
        if c2 = '=' then ([['-', c], cs2], false)
        else ([['-', c], c2 :: cs2], false)
    else
      (['-', c] :: (procCluster sh cs).1, (procCluster sh cs).2)

/-- What the tokenizer does with one raw token (`mod.ts:295-340`): either
the literal `--` (copy the remainder verbatim and stop), or a list of
emitted tokens together with whether the next raw token is consumed as a
value. -/
inductive PreStep : Type
  | copyAll : PreStep
  | emit : List JStr → Bool → PreStep

/-- One iteration of the `#preprocess` loop body on token `s`. -/
def preStep (sh : Char → Bool) (lg : JStr → Bool) (s : JStr) : PreStep :=
  if s = ddTok then .copyAll
  else if startsWithD ddTok s then
    match idxOfEq s with
    | some i => .emit [s.take i, s.drop (i + 1)] false
    | none => .emit [s] (lg (s.drop 2))
  else if 1 < s.length && startsWithD ['-'] s then
    .emit (procCluster sh s.tail).1 (procCluster sh s.tail).2
  else .emit [s] false

/-- The tokenizer, parametrised by the alias lookups. -/
def preprocess (sh : Char → Bool) (lg : JStr → Bool) : List JStr → List JStr
  | [] => []
  | s :: rest =>
    match preStep sh lg s, rest with
    | .copyAll, _ => s :: rest
    | .emit toks true, [] => toks
    | .emit toks true, v :: rest2 => toks ++ v :: preprocess sh lg rest2
    | .emit toks false, r => toks ++ preprocess sh lg r

/-! ## Matcher (`Command.#get` and the loop of `Command.parse`) -/

/-- Index of the last positional in the table. -/
def lastPosIdx : List ArgState → Option Nat
  | [] => none
  | a :: rest =>
    match lastPosIdx rest with
    | some i => some (i + 1)
    | none => if a.isPositional then some 0 else none

/-- `Command.#get` (`mod.ts:203-227`), returning a table index. -/
def getIdx (tbl : List ArgState) (s : JStr) : Option Nat :=
  if startsWithD ddTok s then
    if s.length = 3 then none
    else findIdxD (fun x => x.flags.contains (s.drop 2)) tbl
  else if 1 < s.length && startsWithD ['-'] s then
    findIdxD (fun x => x.flags.contains (s.drop 1)) tbl
  else
    match findIdxD (fun x => x.isPositional && x.occurrences = 0) tbl with
    | some i => some i
    | none =>
      match lastPosIdx tbl with
      | some j => if (getAt tbl j).multi then some j else none
      | none => none

/-- Record one occurrence. -/
def incOcc (a : ArgState) : ArgState := { a with occurrences := a.occurrences + 1 }

/-- Append a collected value. -/
def pushVal (v : JStr) (a : ArgState) : ArgState := { a with vals := a.vals ++ [v] }

/-- The positional-only loop after a literal `--` (`mod.ts:366-378`). -/
def matchPositionals : List ArgState → List JStr → List ArgState × Option Halt
  | tbl, [] => (tbl, none)
  | tbl, v :: rest =>
    match getIdx tbl [] with
    | some i => matchPositionals (updAt i (pushVal v ∘ incOcc) tbl) rest
    | none => (tbl, some (.err (unexpectedValueMsg v)))

/-- The token-consuming loop of `Command.parse` (`mod.ts:363-404`). -/
def matchTokens : List ArgState → List JStr → List ArgState × Option Halt
  | tbl, [] => (tbl, none)
  | tbl, s :: rest =>
    if s = ddTok then matchPositionals tbl rest
    else
      match getIdx tbl s with
      | none =>
        if s = "-h".toList then (tbl, some (.help false))
        else if s = "--help".toList then (tbl, some (.help true))
        else if startsWithD ['-'] s then (tbl, some (.err (unknownOptionMsg s)))
        else (tbl, some (.err (unexpectedValueMsg s)))
      | some i =>
        let a := getAt tbl i
        let tbl1 := updAt i incOcc tbl
        if a.takesValue then
          if a.isPositional then matchTokens (updAt i (pushVal s) tbl1) rest
          else
            match rest with
            | [] => (tbl1, some (.err (needsValueMsg a.name)))
            | v :: rest2 => matchTokens (updAt i (pushVal v) tbl1) rest2
        else matchTokens tbl1 rest

/-! ## Validator (the loop of `mod.ts:407-452`) -/

/-- Resolve a cross-reference key against the table (`this.#args.get`). -/
def argsGet (tbl : List ArgState) (k : JStr) : Option ArgState :=
  findD (fun a => a.key = k) tbl

/-- First conflicting target with a positive count (`mod.ts:408-417`). -/
def conflictFind (tbl : List ArgState) (flag : ArgState) : Option ArgState :=
  if 0 < flag.occurrences ∧ ¬flag.conflicts.isEmpty then
    findD (fun o => 0 < o.occurrences) (flag.conflicts.filterMap (argsGet tbl))
  else none

/-- First required target (without a default) that is absent (`mod.ts:418-431`). -/
def requireFind (tbl : List ArgState) (flag : ArgState) : Option ArgState :=
  if 0 < flag.occurrences ∧ ¬flag.requires.isEmpty then
    findD (fun o => o.occurrences = 0)
      ((flag.requires.filterMap (argsGet tbl)).filter (fun x => x.default = none))
  else none

/-- Run the argument's validator on one value (`undefined` accepts). -/
def applyValidate (a : ArgState) (v : JStr) : Option JStr :=
  match a.validate with
  | none => none
  | some f => f v

/-- One iteration of the validation loop, for the argument at index `i`. -/
def validateStep (tbl : List ArgState) (i : Nat) : List ArgState × Option Halt :=
  let flag := getAt tbl i
  match conflictFind tbl flag with
  | some o => (tbl, some (.err (conflictMsg flag.name o.name)))
  | none =>
  match requireFind tbl flag with
  | some o => (tbl, some (.err (requiresPresentMsg flag.name o.name)))
  | none =>
  if ¬flag.multi ∧ 1 < flag.occurrences then (tbl, some (.err (onceMsg flag.name)))
  else if ¬flag.takesValue then (tbl, none)
  else if flag.required ∧ flag.occurrences = 0 then
    (tbl, some (.err (missingRequiredMsg flag.name)))
  else
    let tbl2 :=
      match flag.default with
      | some d => if flag.occurrences = 0 then updAt i (fun a => { a with vals := [d] }) tbl else tbl
      | none => tbl
    let flag2 := getAt tbl2 i
    match flag2.vals.findSome? (fun v => (applyValidate flag2 v).map (fun r => (v, r))) with
    | some (v, r) => (tbl2, some (.err (failedValidationMsg v flag.name r)))
    | none => (tbl2, none)

/-- The validation loop over the listed indices (fail-fast). -/
def validateFrom (tbl : List ArgState) : List Nat → List ArgState × Option Halt
  | [] => (tbl, none)
  | i :: is =>
    match validateStep tbl i with
    | (t, some h) => (t, some h)
    | (t, none) => validateFrom t is

/-! ## Result builder and entry point (`mod.ts:346-361, 455-462`) -/

/-- The output value of one argument (`mod.ts:456-460`). -/
def valueOf (a : ArgState) : Value :=
  if ¬a.takesValue then .count a.occurrences
  else if a.multi then .many a.vals
  else
    match a.vals.head? with
    | some s => .one s
    | none => .absent

/-- Project the final table into the result object. -/
def buildMatches (tbl : List ArgState) : List (JStr × Value) :=
  tbl.map (fun a => (a.key, valueOf a))

/-- Look a key up in the result object. -/
def matchesGet (m : List (JStr × Value)) (k : JStr) : Option Value :=
  (findD (fun e => e.1 = k) m).map (·.2)

/-- `Command.#reset` (`mod.ts:346-353`). -/
def resetArg (a : ArgState) : ArgState := { a with occurrences := 0, vals := [] }

/-- Reset every entry's mutable state. -/
def resetTable (tbl : List ArgState) : List ArgState := tbl.map resetArg

/-- One full parse over a table: tokenize, match, validate, build.  Returns
the mutated table together with the outcome. -/
def runParse (tbl : List ArgState) (argv : List JStr) :
    List ArgState × ParseResult :=
  let argv2 := preprocess (shortsGet tbl) (longsGet tbl) argv
  match matchTokens tbl argv2 with
  | (t, some (.err m)) => (t, .error m)
  | (t, some (.help b)) => (t, .help b)
  | (t1, none) =>
    match validateFrom t1 (List.range t1.length) with
    | (t, some (.err m)) => (t, .error m)
    | (t, some (.help b)) => (t, .help b)
    | (t2, none) => (t2, .ok (buildMatches t2))

/-- A `Command` instance: the shared mutable table and the `#fresh` flag. -/
structure Command where
  args : List ArgState
  fresh : Bool

/-- `Command.parse` (`mod.ts:358-462`): reset unless fresh, then parse;
returns the outcome and the mutated instance. -/
def Command.parse (c : Command) (argv : List JStr) : ParseResult × Command :=
  let tbl0 := if c.fresh then c.args else resetTable c.args
  match runParse tbl0 argv with
  | (t, r) => (r, { args := t, fresh := false })

/-! ## Basic lemmas about the list helpers -/

theorem getAt_nil (i : Nat) : getAt [] i = defaultArg := by
  cases i <;> rfl

theorem getAt_cons_zero (a : ArgState) (l : List ArgState) : getAt (a :: l) 0 = a := rfl

theorem getAt_cons_succ (a : ArgState) (l : List ArgState) (i : Nat) :
    getAt (a :: l) (i + 1) = getAt l i := rfl

theorem length_updAt {α : Type} (i : Nat) (f : α → α) (l : List α) :
    (updAt i f l).length = l.length := by
  induction l generalizing i with
  | nil => simp [updAt]
  | cons x xs ih =>
    cases i with
    | zero => rfl
    | succ j => simpa [updAt] using ih j

theorem getAt_updAt_eq (i : Nat) (f : ArgState → ArgState) (l : List ArgState)
    (h : i < l.length) : getAt (updAt i f l) i = f (getAt l i) := by
  induction l generalizing i with
  | nil => simp at h
  | cons x xs ih =>
    cases i with
    | zero => rfl
    | succ j =>
      have hj : j < xs.length := by simpa using h
      simpa [updAt, getAt_cons_succ] using ih j hj

theorem getAt_updAt_ne (i j : Nat) (f : ArgState → ArgState) (l : List ArgState)
    (h : i ≠ j) : getAt (updAt i f l) j = getAt l j := by
  induction l generalizing i j with
  | nil => cases i <;> simp [updAt]
  | cons x xs ih =>
    cases i with
    | zero =>
      cases j with
      | zero => exact absurd rfl h
      | succ k => rfl
    | succ i' =>
      cases j with
      | zero => rfl
      | succ k =>
        have : i' ≠ k := fun hk => h (by rw [hk])
        simpa [updAt, getAt_cons_succ] using ih i' k this

theorem getAt_mem {l : List ArgState} {i : Nat} (h : i < l.length) : getAt l i ∈ l := by
  induction l generalizing i with
  | nil => simp at h
  | cons x xs ih =>
    cases i with
    | zero => exact List.mem_cons_self x xs
    | succ j =>
      have hj : j < xs.length := by simpa using h
      exact List.mem_cons_of_mem x (ih hj)

theorem findIdxD_congr {α : Type} {p q : α → Bool} {l : List α}
    (h : ∀ x ∈ l, p x = q x) : findIdxD p l = findIdxD q l := by
  induction l with
  | nil => rfl
  | cons x xs ih =>
    have hx := h x (List.mem_cons_self x xs)
    have ihx := ih (fun y hy => h y (List.mem_cons_of_mem x hy))
    simp [findIdxD, hx, ihx]

theorem findIdxD_some_spec {p : ArgState → Bool} {l : List ArgState} {i : Nat}
    (h : findIdxD p l = some i) :
    i < l.length ∧ p (getAt l i) = true ∧ ∀ j, j < i → p (getAt l j) = false := by
  induction l generalizing i with
  | nil => simp [findIdxD] at h
  | cons x xs ih =>
    by_cases hx : p x = true
    · simp [findIdxD, hx] at h
      subst h
      refine ⟨by simp, by simpa [getAt_cons_zero], fun j hj => by omega⟩
    · have hx' : p x = false := by simpa using hx
      simp [findIdxD, hx'] at h
      obtain ⟨i', hi', rfl⟩ := h
      obtain ⟨h1, h2, h3⟩ := ih hi'
      refine ⟨by simpa using h1, by simpa [getAt_cons_succ] using h2, ?_⟩
      intro j hj
      cases j with
      | zero => simpa [getAt_cons_zero] using hx'
      | succ k => simpa [getAt_cons_succ] using h3 k (by omega)

theorem findIdxD_isSome_of_mem {α : Type} {p : α → Bool} {l : List α} {a : α}
    (ha : a ∈ l) (hp : p a = true) : (findIdxD p l).isSome = true := by
  induction l with
  | nil => simp at ha
  | cons x xs ih =>
    by_cases hx : p x = true
    · simp [findIdxD, hx]
    · have hx' : p x = false := by simpa using hx
      rcases List.mem_cons.mp ha with rfl | hmem
      · rw [hp] at hx'; cases hx'
      · have := ih hmem
        simpa [findIdxD, hx', Option.isSome_map'] using this

theorem findIdxD_none_iff {α : Type} {p : α → Bool} {l : List α} :
    findIdxD p l = none ↔ ∀ x ∈ l, p x = false := by
  induction l with
  | nil => simp [findIdxD]
  | cons x xs ih =>
    by_cases hx : p x = true
    · simp [findIdxD, hx]
    · have hx' : p x = false := by simpa using hx
      simp [findIdxD, hx', ih]

theorem findD_some_mem {α : Type} {p : α → Bool} {l : List α} {a : α}
    (h : findD p l = some a) : a ∈ l ∧ p a = true := by
  induction l with
  | nil => simp [findD] at h
  | cons x xs ih =>
    by_cases hx : p x = true
    · simp [findD, hx] at h
      subst h
      exact ⟨List.mem_cons_self x xs, hx⟩
    · have hx' : p x = false := by simpa using hx
      simp [findD, hx'] at h
      obtain ⟨h1, h2⟩ := ih h
      exact ⟨List.mem_cons_of_mem x h1, h2⟩

theorem findD_isSome_of_mem {α : Type} {p : α → Bool} {l : List α} {a : α}
    (ha : a ∈ l) (hp : p a = true) : (findD p l).isSome = true := by
  induction l with
  | nil => simp at ha
  | cons x xs ih =>
    by_cases hx : p x = true
    · simp [findD, hx]
    · have hx' : p x = false := by simpa using hx
      rcases List.mem_cons.mp ha with rfl | hmem
      · rw [hp] at hx'; cases hx'
      · simpa [findD, hx'] using ih hmem

theorem findD_none_iff {α : Type} {p : α → Bool} {l : List α} :
    findD p l = none ↔ ∀ x ∈ l, p x = false := by
  induction l with
  | nil => simp [findD]
  | cons x xs ih =>
    by_cases hx : p x = true
    · simp [findD, hx]
    · have hx' : p x = false := by simpa using hx
      simp [findD, hx', ih]

theorem lastMatch_some_mem {α : Type} {p : α → Bool} {l : List α} {a : α}
    (h : lastMatch p l = some a) : a ∈ l ∧ p a = true := by
  induction l with
  | nil => simp [lastMatch] at h
  | cons x xs ih =>
    rcases hr : lastMatch p xs with _ | r
    · rw [lastMatch, hr] at h
      by_cases hx : p x = true
      · simp [hx] at h
        subst h
        exact ⟨List.mem_cons_self x xs, hx⟩
      · simp [hx] at h
    · rw [lastMatch, hr] at h
      simp at h
      subst h
      obtain ⟨h1, h2⟩ := ih hr
      exact ⟨List.mem_cons_of_mem x h1, h2⟩

theorem lastMatch_isSome_of_mem {α : Type} {p : α → Bool} {l : List α} {a : α}
    (ha : a ∈ l) (hp : p a = true) : (lastMatch p l).isSome = true := by
  induction l with
  | nil => simp at ha
  | cons x xs ih =>
    rcases hr : lastMatch p xs with _ | r
    · rcases List.mem_cons.mp ha with rfl | hmem
      · simp [lastMatch, hr, hp]
      · have := ih hmem
        rw [hr] at this
        simp at this
    · simp [lastMatch, hr]

theorem lastMatch_unique {α : Type} {p : α → Bool} {l : List α} {a : α}
    (hu : ∀ x ∈ l, p x = true → x = a) (ha : a ∈ l) (hp : p a = true) :
    lastMatch p l = some a := by
  rcases hr : lastMatch p l with _ | r
  · have := lastMatch_isSome_of_mem ha hp
    rw [hr] at this
    simp at this
  · obtain ⟨h1, h2⟩ := lastMatch_some_mem hr
    rw [hu r h1 h2]

/-! ## Evolution of the table during matching and validation -/

theorem resetArg_incOcc (a : ArgState) : resetArg (incOcc a) = resetArg a := rfl

theorem resetArg_pushVal (v : JStr) (a : ArgState) :
    resetArg (pushVal v a) = resetArg a := rfl

theorem resetArg_seed (d : JStr) (a : ArgState) :
    resetArg { a with vals := [d] } = resetArg a := rfl

theorem fields_of_resetArg_eq {a b : ArgState} (h : resetArg a = resetArg b) :
    a.key = b.key ∧ a.name = b.name ∧ a.isPositional = b.isPositional ∧
    a.required = b.required ∧ a.default = b.default ∧ a.flags = b.flags ∧
    a.multi = b.multi ∧ a.takesValue = b.takesValue ∧ a.validate = b.validate ∧
    a.conflicts = b.conflicts ∧ a.requires = b.requires := by
  cases a
  cases b
  simp only [resetArg, ArgState.mk.injEq] at h
  simp only [ArgState.key, ArgState.name, ArgState.isPositional, ArgState.required,
    ArgState.default, ArgState.flags, ArgState.multi, ArgState.takesValue,
    ArgState.validate, ArgState.conflicts, ArgState.requires]
  tauto

theorem key_of_resetArg_eq {a b : ArgState} (h : resetArg a = resetArg b) :
    a.key = b.key := (fields_of_resetArg_eq h).1

theorem resetTable_updAt (i : Nat) (f : ArgState → ArgState) (l : List ArgState)
    (hf : ∀ a, resetArg (f a) = resetArg a) :
    resetTable (updAt i f l) = resetTable l := by
  induction l generalizing i with
  | nil => simp [updAt]
  | cons x xs ih =>
    cases i with
    | zero => simp [updAt, resetTable, hf]
    | succ j =>
      have hx := ih j
      simp only [resetTable, List.map_cons] at hx ⊢
      simp [updAt, hx]

theorem getAt_resetTable (l : List ArgState) (i : Nat) :
    getAt (resetTable l) i = resetArg (getAt l i) := by
  induction l generalizing i with
  | nil => cases i <;> rfl
  | cons x xs ih =>
    cases i with
    | zero => rfl
    | succ j => simpa [resetTable, getAt_cons_succ] using ih j

/-- `t'` is a mid-parse mutation of `t`: the immutable fields agree, the
occurrence counts agree, and entries with a positive count are untouched. -/
inductive EvolvedL : List ArgState → List ArgState → Prop
  | nil : EvolvedL [] []
  | cons {a a' : ArgState} {t t' : List ArgState} :
      resetArg a' = resetArg a → a'.occurrences = a.occurrences →
      (a.occurrences ≠ 0 → a' = a) → EvolvedL t t' → EvolvedL (a :: t) (a' :: t')

theorem EvolvedL.rfl : ∀ t : List ArgState, EvolvedL t t := by
  intro t
  induction t with
  | nil => exact .nil
  | cons a t ih => exact .cons (by rfl) (by rfl) (fun _ => by rfl) ih

theorem EvolvedL.trans : ∀ {t1 t2 t3 : List ArgState},
    EvolvedL t1 t2 → EvolvedL t2 t3 → EvolvedL t1 t3 := by
  intro t1 t2 t3 h12 h23
  induction h12 generalizing t3 with
  | nil => cases h23; exact .nil
  | cons hr ho hk _ ih =>
    cases h23 with
    | cons hr' ho' hk' htail =>
      refine .cons (hr'.trans hr) (ho'.trans ho) ?_ (ih htail)
      intro hocc
      rw [hk' (by rw [ho]; exact hocc), hk hocc]

theorem EvolvedL.length_eq : ∀ {t t' : List ArgState},
    EvolvedL t t' → t'.length = t.length := by
  intro t t' h
  induction h with
  | nil => rfl
  | cons _ _ _ _ ih => simpa using ih

theorem EvolvedL.getAt_spec : ∀ {t t' : List ArgState}, EvolvedL t t' → ∀ j,
    resetArg (getAt t' j) = resetArg (getAt t j) ∧
    (getAt t' j).occurrences = (getAt t j).occurrences ∧
    ((getAt t j).occurrences ≠ 0 → getAt t' j = getAt t j) := by
  intro t t' h
  induction h with
  | nil => intro j; exact ⟨by rfl, by rfl, fun _ => by rfl⟩
  | cons hr ho hk _ ih =>
    intro j
    cases j with
    | zero => exact ⟨hr, ho, hk⟩
    | succ i => simpa [getAt_cons_succ] using ih i

theorem EvolvedL.resetTable_eq : ∀ {t t' : List ArgState},
    EvolvedL t t' → resetTable t' = resetTable t := by
  intro t t' h
  induction h with
  | nil => rfl
  | cons hr _ _ _ ih => simpa [resetTable, hr] using ih

theorem EvolvedL.updAt_seed {t : List ArgState} {i : Nat} {d : JStr}
    (h0 : (getAt t i).occurrences = 0) :
    EvolvedL t (updAt i (fun a => { a with vals := [d] }) t) := by
  induction t generalizing i with
  | nil => simpa [updAt] using EvolvedL.nil
  | cons x xs ih =>
    cases i with
    | zero =>
      refine .cons (by rfl) (by rfl) ?_ (EvolvedL.rfl xs)
      intro hocc
      exact absurd (by simpa [getAt_cons_zero] using h0) hocc
    | succ j =>
      exact .cons (by rfl) (by rfl) (fun _ => by rfl)
        (ih (by simpa [getAt_cons_succ] using h0))

theorem argsGet_evolved {t t' : List ArgState} (h : EvolvedL t t') (k : JStr) :
    (argsGet t' k = none ∧ argsGet t k = none) ∨
    (∃ o o', argsGet t k = some o ∧ argsGet t' k = some o' ∧
      resetArg o' = resetArg o ∧ o'.occurrences = o.occurrences) := by
  induction h with
  | nil => exact .inl ⟨rfl, rfl⟩
  | cons hr ho hk htail ih =>
    rename_i a a' t1 t1'
    by_cases hak : a.key = k
    · right
      have hak' : a'.key = k := (key_of_resetArg_eq hr).trans hak
      exact ⟨a, a', by simp [argsGet, findD, hak], by simp [argsGet, findD, hak'], hr, ho⟩
    · have hak' : ¬a'.key = k := fun hx => hak ((key_of_resetArg_eq hr).symm.trans hx)
      rcases ih with ⟨h1, h2⟩ | ⟨o, o', h1, h2, h3, h4⟩
      · left
        constructor
        · simpa [argsGet, findD, hak'] using h1
        · simpa [argsGet, findD, hak] using h2
      · right
        refine ⟨o, o', ?_, ?_, h3, h4⟩
        · simpa [argsGet, findD, hak] using h1
        · simpa [argsGet, findD, hak'] using h2

theorem findD_occ_filterMap_evolved {t t' : List ArgState} (h : EvolvedL t t') :
    ∀ ks : List JStr,
      (findD (fun o => 0 < o.occurrences) (ks.filterMap (argsGet t'))).isSome
      = (findD (fun o => 0 < o.occurrences) (ks.filterMap (argsGet t))).isSome := by
  intro ks
  induction ks with
  | nil => rfl
  | cons k ks ih =>
    rcases argsGet_evolved h k with ⟨h1, h2⟩ | ⟨o, o', h1, h2, _, h4⟩
    · simp [List.filterMap_cons, h1, h2, ih]
    · simp only [List.filterMap_cons, h1, h2]
      by_cases hocc : 0 < o.occurrences
      · simp [findD, hocc, h4 ▸ hocc]
      · have hocc' : ¬0 < o'.occurrences := by rw [h4]; exact hocc
        simp [findD, hocc, hocc', ih]

theorem conflictFind_isSome_evolved {t t' : List ArgState} (h : EvolvedL t t')
    (i : Nat) :
    (conflictFind t' (getAt t' i)).isSome = (conflictFind t (getAt t i)).isSome := by
  obtain ⟨hr, ho, _⟩ := h.getAt_spec i
  obtain ⟨_, _, _, _, _, _, _, _, _, hconf, _⟩ := fields_of_resetArg_eq hr
  unfold conflictFind
  rw [ho, hconf]
  by_cases hc : 0 < (getAt t i).occurrences ∧ ¬(getAt t i).conflicts.isEmpty
  · rw [if_pos hc, if_pos hc]
    exact findD_occ_filterMap_evolved h (getAt t i).conflicts
  · rw [if_neg hc, if_neg hc]

theorem validateStep_fst (t : List ArgState) (i : Nat) :
    (validateStep t i).1 = t ∨
    ((getAt t i).occurrences = 0 ∧ ∃ d, (getAt t i).default = some d ∧
      (validateStep t i).1 = updAt i (fun a => { a with vals := [d] }) t) := by
  rcases hd : (getAt t i).default with _ | d
  · left
    simp only [validateStep, hd]
    repeat' split
    all_goals rfl
  · by_cases h0 : (getAt t i).occurrences = 0
    · simp only [validateStep, hd, if_pos h0]
      split
      · left; rfl
      split
      · left; rfl
      split
      · left; rfl
      split
      · left; rfl
      split
      · left; rfl
      split
      · right; exact ⟨h0, d, rfl, rfl⟩
      · right; exact ⟨h0, d, rfl, rfl⟩
    · left
      simp only [validateStep, hd, if_neg h0]
      repeat' split
      all_goals rfl

theorem evolved_validateStep (t : List ArgState) (i : Nat) :
    EvolvedL t (validateStep t i).1 := by
  rcases validateStep_fst t i with h | ⟨h0, d, _, h⟩
  · rw [h]; exact EvolvedL.rfl t
  · rw [h]; exact EvolvedL.updAt_seed h0

theorem evolved_validateFrom : ∀ (is : List Nat) (t : List ArgState),
    EvolvedL t (validateFrom t is).1 := by
  intro is
  induction is with
  | nil => intro t; exact EvolvedL.rfl t
  | cons j js ih =>
    intro t
    rcases hs : validateStep t j with ⟨t1, h?⟩
    have ht1 : EvolvedL t t1 := by
      have := evolved_validateStep t j
      rw [hs] at this
      exact this
    cases h? with
    | none =>
      rw [show validateFrom t (j :: js) = validateFrom t1 js by
        rw [validateFrom, hs]]
      exact ht1.trans (ih t1)
    | some h =>
      rw [show validateFrom t (j :: js) = (t1, some h) by rw [validateFrom, hs]]
      exact ht1

theorem validateFrom_halts {i : Nat} : ∀ (is : List Nat) (t : List ArgState),
    i ∈ is →
    (∀ t', EvolvedL t t' → (validateStep t' i).2.isSome = true) →
    (validateFrom t is).2.isSome = true := by
  intro is
  induction is with
  | nil => intro t h; simp at h
  | cons j js ih =>
    intro t hmem hstep
    rcases hs : validateStep t j with ⟨t1, h?⟩
    have ht1 : EvolvedL t t1 := by
      have := evolved_validateStep t j
      rw [hs] at this
      exact this
    cases h? with
    | some h =>
      rw [show validateFrom t (j :: js) = (t1, some h) by rw [validateFrom, hs]]
      rfl
    | none =>
      rw [show validateFrom t (j :: js) = validateFrom t1 js by
        rw [validateFrom, hs]]
      rcases List.mem_cons.mp hmem with rfl | hmem2
      · have := hstep t (EvolvedL.rfl t)
        rw [hs] at this
        simp at this
      · exact ih t1 hmem2 (fun t' h' => hstep t' (ht1.trans h'))

theorem resetTable_matchPositionals : ∀ (ts : List JStr) (t : List ArgState),
    resetTable (matchPositionals t ts).1 = resetTable t := by
  intro ts
  induction ts with
  | nil => intro t; rfl
  | cons v rest ih =>
    intro t
    rw [matchPositionals]
    rcases hg : getIdx t [] with _ | i
    · rfl
    · simp only []
      rw [ih]
      exact resetTable_updAt i _ t (fun a => rfl)

theorem resetTable_matchTokens_aux : ∀ (n : Nat) (ts : List JStr) (t : List ArgState),
    ts.length ≤ n → resetTable (matchTokens t ts).1 = resetTable t := by
  intro n
  induction n with
  | zero =>
    intro ts t hle
    have h0 : ts = [] := List.length_eq_zero.mp (Nat.le_zero.mp hle)
    subst h0
    rfl
  | succ n ih =>
    intro ts t hle
    cases ts with
    | nil => rfl
    | cons s rest =>
      have hrest : rest.length ≤ n := by simpa using hle
      rw [matchTokens]
      by_cases hdd : s = ddTok
      · rw [if_pos hdd]
        exact resetTable_matchPositionals rest t
      · rw [if_neg hdd]
        rcases hg : getIdx t s with _ | i
        · simp only [hg]
          repeat' split
          all_goals rfl
        · simp only [hg]
          by_cases htv : (getAt t i).takesValue
          · rw [if_pos htv]
            by_cases hip : (getAt t i).isPositional
            · rw [if_pos hip]
              rw [ih rest _ hrest, resetTable_updAt _ _ _ (resetArg_pushVal s),
                resetTable_updAt _ _ _ resetArg_incOcc]
            · rw [if_neg hip]
              cases rest with
              | nil =>
                simp only []
                rw [resetTable_updAt _ _ _ resetArg_incOcc]
              | cons v rest2 =>
                have hrest2 : rest2.length ≤ n := by
                  simp at hrest
                  omega
                rw [ih rest2 _ hrest2, resetTable_updAt _ _ _ (resetArg_pushVal v),
                  resetTable_updAt _ _ _ resetArg_incOcc]
          · rw [if_neg htv]
            rw [ih rest _ hrest, resetTable_updAt _ _ _ resetArg_incOcc]

theorem resetTable_matchTokens (ts : List JStr) (t : List ArgState) :
    resetTable (matchTokens t ts).1 = resetTable t :=
  resetTable_matchTokens_aux ts.length ts t (Nat.le_refl _)

theorem runParse_reset (t : List ArgState) (argv : List JStr) :
    resetTable (runParse t argv).1 = resetTable t := by
  unfold runParse
  rcases hm : matchTokens t (preprocess (shortsGet t) (longsGet t) argv) with ⟨t1, h?⟩
  have hmt : resetTable t1 = resetTable t := by
    have := resetTable_matchTokens (preprocess (shortsGet t) (longsGet t) argv) t
    rw [hm] at this
    exact this
  cases h? with
  | some h =>
    cases h with
    | err m => simp only [hm]; exact hmt
    | help b => simp only [hm]; exact hmt
  | none =>
    rcases hv : validateFrom t1 (List.range t1.length) with ⟨t2, h2?⟩
    have hvt : resetTable t2 = resetTable t1 := by
      have := (evolved_validateFrom (List.range t1.length) t1).resetTable_eq
      rw [hv] at this
      exact this
    cases h2? with
    | some h =>
      cases h with
      | err m => simp only [hm, hv]; exact hvt.trans hmt
      | help b => simp only [hm, hv]; exact hvt.trans hmt
    | none => simp only [hm, hv]; exact hvt.trans hmt

/-! ## Canonical shape of the tokenizer output (claim C2) -/

/-- A token the matcher can never mistake for a flag by shape: it does not
have a hyphen followed by at least one more unit. -/
def isPlainTok : JStr → Bool
  | c :: _ :: _ => decide (c ≠ '-')
  | _ => true

/-- Canonical decomposition of the tokenizer output: a sequence of
standalone non-cluster tokens and flag/value pairs, up to the first
literal `--` (after which tokens are copied verbatim).  Long-flag tokens
in flag position carry no `=`; a long flag's successor is its value
whenever it has one (in particular the `=`-split always attaches one); a
value-taking short flag is followed by its value or ends the list; short
flags in flag position are single characters, never clusters. -/
inductive Canon (sh : Char → Bool) (lg : JStr → Bool) : List JStr → Prop
  | nil : Canon sh lg []
  | ddash (rest : List JStr) : Canon sh lg (ddTok :: rest)
  | long_val (s v : JStr) (rest : List JStr) :
      startsWithD ddTok s = true → idxOfEq s = none →
      Canon sh lg rest → Canon sh lg (s :: v :: rest)
  | long_end (s : JStr) :
      startsWithD ddTok s = true → idxOfEq s = none → Canon sh lg [s]
  | long_alone (s : JStr) (rest : List JStr) :
      startsWithD ddTok s = true → idxOfEq s = none → lg (s.drop 2) = false →
      Canon sh lg rest → Canon sh lg (s :: rest)
  | short_val (c : Char) (v : JStr) (rest : List JStr) :
      sh c = true → Canon sh lg rest → Canon sh lg (['-', c] :: v :: rest)
  | short_end (c : Char) : sh c = true → Canon sh lg [['-', c]]
  | short_alone (c : Char) (rest : List JStr) :
      sh c = false → Canon sh lg rest → Canon sh lg (['-', c] :: rest)
  | plain (s : JStr) (rest : List JStr) :
      isPlainTok s = true → Canon sh lg rest → Canon sh lg (s :: rest)

theorem procCluster_false (sh : Char → Bool) (lg : JStr → Bool) :
    ∀ (cs : List Char) (em : List JStr) (tail : List JStr),
      procCluster sh cs = (em, false) → Canon sh lg tail →
      Canon sh lg (em ++ tail) := by
  intro cs
  induction cs with
  | nil =>
    intro em tail h ht
    simp [procCluster] at h
    simpa [h] using ht
  | cons c cs ih =>
    intro em tail h ht
    rw [procCluster.eq_def] at h
    by_cases hc : sh c = true
    · simp only [hc, if_true] at h
      cases cs with
      | nil => simp at h
      | cons c2 cs2 =>
        by_cases h2 : c2 = '='
        · subst h2
          simp at h
          rw [← h]
          exact Canon.short_val c cs2 tail hc ht
        · simp only [if_neg h2] at h
          simp at h
          rw [← h]
          exact Canon.short_val c (c2 :: cs2) tail hc ht
    · have hc' : sh c = false := by simpa using hc
      simp only [hc', Bool.false_eq_true, if_false] at h
      rcases hp : procCluster sh cs with ⟨em2, b⟩
      rw [hp] at h
      simp at h
      obtain ⟨h1, h2⟩ := h
      subst h2
      rw [← h1]
      exact Canon.short_alone c _ hc' (ih em2 tail hp ht)

theorem procCluster_true (sh : Char → Bool) (lg : JStr → Bool) :
    ∀ (cs : List Char) (em : List JStr),
      procCluster sh cs = (em, true) →
      Canon sh lg em ∧
      ∀ (v : JStr) (tail : List JStr), Canon sh lg tail →
        Canon sh lg (em ++ v :: tail) := by
  intro cs
  induction cs with
  | nil => intro em h; simp [procCluster] at h
  | cons c cs ih =>
    intro em h
    rw [procCluster.eq_def] at h
    by_cases hc : sh c = true
    · simp only [hc, if_true] at h
      cases cs with
      | nil =>
        simp at h
        rw [← h]
        exact ⟨Canon.short_end c hc, fun v tail ht => Canon.short_val c v tail hc ht⟩
      | cons c2 cs2 =>
        by_cases h2 : c2 = '='
        · subst h2; simp at h
        · simp only [if_neg h2] at h; simp at h
    · have hc' : sh c = false := by simpa using hc
      simp only [hc', Bool.false_eq_true, if_false] at h
      rcases hp : procCluster sh cs with ⟨em2, b⟩
      rw [hp] at h
      simp at h
      obtain ⟨h1, h2⟩ := h
      subst h2
      rw [← h1]
      obtain ⟨hx, hy⟩ := ih em2 hp
      refine ⟨Canon.short_alone c _ hc' hx, ?_⟩
      intro v tail ht
      exact Canon.short_alone c _ hc' (hy v tail ht)

theorem idxOfEq_take (s : JStr) : ∀ (i : Nat), idxOfEq s = some i →
    idxOfEq (s.take i) = none := by
  induction s with
  | nil => intro i h; simp [idxOfEq] at h
  | cons c cs ih =>
    intro i h
    by_cases hc : c = '='
    · subst hc
      simp [idxOfEq] at h
      simp [← h, idxOfEq]
    · rw [idxOfEq, if_neg hc] at h
      rcases hcs : idxOfEq cs with _ | i2
      · rw [hcs] at h; simp at h
      · rw [hcs] at h
        simp at h
        subst h
        simp only [List.take]
        rw [idxOfEq, if_neg hc, ih i2 hcs]
        rfl

theorem startsWithD_dd_take (s : JStr) (i : Nat)
    (hs : startsWithD ddTok s = true) (h : idxOfEq s = some i) :
    startsWithD ddTok (s.take i) = true := by
  cases s with
  | nil => simp [ddTok, startsWithD] at hs
  | cons c s1 =>
    cases s1 with
    | nil => simp [ddTok, startsWithD] at hs
    | cons c2 s2 =>
      simp [ddTok, startsWithD] at hs
      obtain ⟨hc, hc2⟩ := hs
      subst hc
      subst hc2
      rw [idxOfEq, if_neg (by decide)] at h
      rcases h1 : idxOfEq ('-' :: s2) with _ | i1
      · rw [h1] at h; simp at h
      · rw [h1] at h
        simp at h
        subst h
        rw [idxOfEq, if_neg (by decide)] at h1
        rcases h2 : idxOfEq s2 with _ | i2
        · rw [h2] at h1; simp at h1
        · rw [h2] at h1
          simp at h1
          subst h1
          simp [ddTok, startsWithD, List.take]

theorem preStep_copyAll {sh : Char → Bool} {lg : JStr → Bool} {s : JStr}
    (h : preStep sh lg s = .copyAll) : s = ddTok := by
  by_cases hdd : s = ddTok
  · exact hdd
  · exfalso
    rw [preStep, if_neg hdd] at h
    by_cases hpre : startsWithD ddTok s = true
    · rw [if_pos hpre] at h
      rcases he : idxOfEq s with _ | i <;> simp [he] at h
    · have hpre' : startsWithD ddTok s = false := by simpa using hpre
      rw [hpre'] at h
      simp only [Bool.false_eq_true, if_false] at h
      by_cases hcl : (decide (1 < s.length) && startsWithD ['-'] s) = true
      · rw [if_pos hcl] at h; simp at h
      · rw [if_neg hcl] at h; simp at h

theorem preStep_canon_false (sh : Char → Bool) (lg : JStr → Bool) (s : JStr)
    (toks : List JStr) (h : preStep sh lg s = .emit toks false) :
    ∀ tail, Canon sh lg tail → Canon sh lg (toks ++ tail) := by
  intro tail ht
  by_cases hdd : s = ddTok
  · rw [preStep, if_pos hdd] at h; simp at h
  · rw [preStep, if_neg hdd] at h
    by_cases hpre : startsWithD ddTok s = true
    · rw [if_pos hpre] at h
      rcases he : idxOfEq s with _ | i
      · rw [he] at h
        simp only [PreStep.emit.injEq] at h
        obtain ⟨h1, h2⟩ := h
        rw [← h1]
        exact Canon.long_alone s tail hpre he h2 ht
      · rw [he] at h
        simp only [PreStep.emit.injEq] at h
        rw [← h.1]
        exact Canon.long_val _ _ _ (startsWithD_dd_take s i hpre he)
          (idxOfEq_take s i he) ht
    · have hpre' : startsWithD ddTok s = false := by simpa using hpre
      rw [hpre'] at h
      simp only [Bool.false_eq_true, if_false] at h
      by_cases hcl : (decide (1 < s.length) && startsWithD ['-'] s) = true
      · rw [if_pos hcl] at h
        simp only [PreStep.emit.injEq] at h
        obtain ⟨h1, h2⟩ := h
        rw [← h1]
        exact procCluster_false sh lg s.tail _ tail (by rw [← h2]) ht
      · rw [if_neg hcl] at h
        simp only [PreStep.emit.injEq] at h
        rw [← h.1]
        refine Canon.plain s tail ?_ ht
        cases s with
        | nil => rfl
        | cons c s1 =>
          cases s1 with
          | nil => rfl
          | cons c2 s2 =>
            by_cases hcd : c = '-'
            · subst hcd
              exfalso
              apply hcl
              simp [startsWithD]
            · simp [isPlainTok, hcd]

theorem preStep_canon_true (sh : Char → Bool) (lg : JStr → Bool) (s : JStr)
    (toks : List JStr) (h : preStep sh lg s = .emit toks true) :
    Canon sh lg toks ∧
    ∀ (v : JStr) (tail : List JStr), Canon sh lg tail →
      Canon sh lg (toks ++ v :: tail) := by
  by_cases hdd : s = ddTok
  · rw [preStep, if_pos hdd] at h; simp at h
  · rw [preStep, if_neg hdd] at h
    by_cases hpre : startsWithD ddTok s = true
    · rw [if_pos hpre] at h
      rcases he : idxOfEq s with _ | i
      · rw [he] at h
        simp only [PreStep.emit.injEq] at h
        obtain ⟨h1, _⟩ := h
        rw [← h1]
        exact ⟨Canon.long_end s hpre he,
          fun v tail ht => Canon.long_val s v tail hpre he ht⟩
      · rw [he] at h; simp at h
    · have hpre' : startsWithD ddTok s = false := by simpa using hpre
      rw [hpre'] at h
      simp only [Bool.false_eq_true, if_false] at h
      by_cases hcl : (decide (1 < s.length) && startsWithD ['-'] s) = true
      · rw [if_pos hcl] at h
        simp only [PreStep.emit.injEq] at h
        obtain ⟨h1, h2⟩ := h
        rw [← h1]
        exact procCluster_true sh lg s.tail _ (by rw [← h2])
      · rw [if_neg hcl] at h; simp at h

theorem canon_preprocess_aux (sh : Char → Bool) (lg : JStr → Bool) :
    ∀ (n : Nat) (argv : List JStr), argv.length ≤ n →
      Canon sh lg (preprocess sh lg argv) := by
  intro n
  induction n with
  | zero =>
    intro argv h
    have h0 : argv = [] := List.length_eq_zero.mp (Nat.le_zero.mp h)
    subst h0
    exact Canon.nil
  | succ n ih =>
    intro argv hle
    cases argv with
    | nil => exact Canon.nil
    | cons s rest =>
      have hrest : rest.length ≤ n := by simpa using hle
      rcases hps : preStep sh lg s with _ | ⟨toks, b⟩
      · rw [show preprocess sh lg (s :: rest) = s :: rest by
          simp [preprocess, hps]]
        rw [preStep_copyAll hps]
        exact Canon.ddash rest
      · cases b with
        | false =>
          rw [show preprocess sh lg (s :: rest) = toks ++ preprocess sh lg rest by
            simp [preprocess, hps]]
          exact preStep_canon_false sh lg s toks hps _ (ih rest hrest)
        | true =>
          cases rest with
          | nil =>
            rw [show preprocess sh lg [s] = toks by simp [preprocess, hps]]
            exact (preStep_canon_true sh lg s toks hps).1
          | cons v rest2 =>
            have hr2 : rest2.length ≤ n := by simp at hrest; omega
            rw [show preprocess sh lg (s :: v :: rest2)
                = toks ++ v :: preprocess sh lg rest2 by simp [preprocess, hps]]
            exact (preStep_canon_true sh lg s toks hps).2 v _ (ih rest2 hr2)

/-! ## Lemmas about the constructor -/

theorem normPossible_stable (v : Arg) :
    (normPossible v).flags = v.flags ∧ (normPossible v).multi = v.multi ∧
    (normPossible v).conflicts = v.conflicts ∧
    (normPossible v).requires = v.requires ∧
    (normPossible v).default = v.default := by
  unfold normPossible
  split <;> simp

theorem normValidate_stable (v : Arg) :
    (normValidate v).flags = v.flags ∧ (normValidate v).multi = v.multi ∧
    (normValidate v).conflicts = v.conflicts ∧
    (normValidate v).requires = v.requires ∧
    (normValidate v).default = v.default ∧
    (normValidate v).validate = v.validate := by
  unfold normValidate
  split <;> simp

theorem normDefault_stable (v : Arg) :
    (normDefault v).flags = v.flags ∧ (normDefault v).multi = v.multi ∧
    (normDefault v).conflicts = v.conflicts ∧
    (normDefault v).requires = v.requires ∧
    (normDefault v).default = v.default ∧
    (normDefault v).validate = v.validate ∧
    (v.takesValue = true → (normDefault v).takesValue = true) := by
  unfold normDefault
  split <;> simp

theorem normSpec_stable (v : Arg) :
    (normSpec v).flags = v.flags ∧ (normSpec v).multi = v.multi ∧
    (normSpec v).conflicts = v.conflicts ∧
    (normSpec v).requires = v.requires ∧
    (normSpec v).default = v.default := by
  unfold normSpec
  obtain ⟨p1, p2, p3, p4, p5⟩ := normPossible_stable v
  obtain ⟨q1, q2, q3, q4, q5, _⟩ := normValidate_stable (normPossible v)
  obtain ⟨r1, r2, r3, r4, r5, _, _⟩ := normDefault_stable (normValidate (normPossible v))
  exact ⟨r1.trans (q1.trans p1), r2.trans (q2.trans p2), r3.trans (q3.trans p3),
    r4.trans (q4.trans p4), r5.trans (q5.trans p5)⟩

theorem normSpec_possible (v : Arg) (h : ¬v.possible.isEmpty) :
    (normSpec v).takesValue = true ∧
    (normSpec v).validate = some (possibleValidator v.possible v.ignoreCase) := by
  have hp : normPossible v =
      { v with takesValue := true,
               validate := some (possibleValidator v.possible v.ignoreCase) } := by
    unfold normPossible
    rw [if_neg h]
  have hv : normValidate (normPossible v) = { normPossible v with takesValue := true } := by
    unfold normValidate
    rw [if_pos (by rw [hp]; simp)]
  obtain ⟨_, _, _, _, _, r6, r7⟩ := normDefault_stable (normValidate (normPossible v))
  constructor
  · exact r7 (by rw [hv])
  · unfold normSpec
    rw [r6, hv, hp]

theorem mkState_ok_spec {k : JStr} {v3 : Arg} {st : ArgState}
    (h : mkState k v3 = .ok st) :
    st.key = k ∧ st.occurrences = 0 ∧ st.vals = [] ∧
    st.flags = v3.flags.map stripFlag ∧ st.multi = v3.multi ∧
    st.conflicts = v3.conflicts ∧ st.requires = v3.requires ∧
    st.validate = v3.validate ∧ st.default = v3.default ∧
    (v3.takesValue = true → st.takesValue = true) := by
  unfold mkState at h
  split at h
  · injection h with h2
    subst h2
    simp
  · split at h <;>
      first
        | exact Except.noConfusion h
        | (injection h with h2; subst h2; simp)

theorem mkState_error_iff (k : JStr) (v3 : Arg) :
    mkState k v3 = .error (emptyFlagMsg k) ↔
      (¬v3.flags.isEmpty ∧ ∀ f ∈ v3.flags, stripFlag f = []) := by
  unfold mkState
  by_cases he : (v3.flags.map stripFlag).isEmpty = true
  · rw [if_pos he]
    have : v3.flags.isEmpty = true := by simpa using he
    simp [this]
  · rw [if_neg he]
    have hne : ¬v3.flags.isEmpty = true := by simpa using he
    rcases hs : ((v3.flags.map stripFlag).filter (fun f => f.length = 1)).head? with _ | s0
    · rcases hl : ((v3.flags.map stripFlag).filter (fun f => 1 < f.length)).head? with _ | l0
      · simp only [hs, hl]
        constructor
        · intro _
          refine ⟨hne, ?_⟩
          intro f hf
          have hmem : stripFlag f ∈ v3.flags.map stripFlag := List.mem_map_of_mem _ hf
          have h1 : ¬(stripFlag f).length = 1 := by
            intro hx
            have : stripFlag f ∈ (v3.flags.map stripFlag).filter (fun g => g.length = 1) :=
              List.mem_filter.mpr ⟨hmem, by simpa using hx⟩
            rw [List.head?_eq_none_iff.mp hs] at this
            simp at this
          have h2 : ¬1 < (stripFlag f).length := by
            intro hx
            have : stripFlag f ∈ (v3.flags.map stripFlag).filter (fun g => 1 < g.length) :=
              List.mem_filter.mpr ⟨hmem, by simpa using hx⟩
            rw [List.head?_eq_none_iff.mp hl] at this
            simp at this
          have hz : (stripFlag f).length = 0 := by omega
          exact List.eq_nil_of_length_eq_zero hz
        · intro _; trivial
      · simp only [hs, hl]
        constructor
        · intro hx; exact Except.noConfusion hx
        · intro ⟨_, hall⟩
          exfalso
          have hmem : l0 ∈ (v3.flags.map stripFlag).filter (fun g => 1 < g.length) :=
            List.mem_of_mem_head? (by rw [hl]; rfl)
          obtain ⟨hmem2, hp⟩ := List.mem_filter.mp hmem
          obtain ⟨f, hf, rfl⟩ := List.mem_map.mp hmem2
          rw [hall f hf] at hp
          simp at hp
    · rcases hl : ((v3.flags.map stripFlag).filter (fun f => 1 < f.length)).head? with _ | l0 <;>
        (simp only [hs, hl]
         constructor
         · intro hx; exact Except.noConfusion hx
         · intro ⟨_, hall⟩
           exfalso
           have hmem : s0 ∈ (v3.flags.map stripFlag).filter (fun g => g.length = 1) :=
             List.mem_of_mem_head? (by rw [hs]; rfl)
           obtain ⟨hmem2, hp⟩ := List.mem_filter.mp hmem
           obtain ⟨f, hf, rfl⟩ := List.mem_map.mp hmem2
           rw [hall f hf] at hp
           simp at hp)

theorem getAt_of_get? {l : List ArgState} {j : Nat} {st : ArgState}
    (h : l.get? j = some st) : getAt l j = st := by
  induction l generalizing j with
  | nil => simp at h
  | cons x xs ih =>
    cases j with
    | zero => simp at h; rw [getAt_cons_zero, h]
    | succ j2 =>
      rw [getAt_cons_succ]
      exact ih (by simpa using h)

theorem buildTableGo_ok_entry (args : List (JStr × Arg)) :
    ∀ (l : List (JStr × Arg)) (tbl : List ArgState),
      buildTableGo args l = .ok tbl →
    ∀ (j : Nat) (k : JStr) (v : Arg), l.get? j = some (k, v) →
    ∃ st, processEntry args k v = .ok st ∧ tbl.get? j = some st := by
  intro l
  induction l with
  | nil => intro tbl h j k v hj; simp at hj
  | cons e rest ih =>
    intro tbl h j k v hj
    rcases e with ⟨k0, v0⟩
    rw [buildTableGo] at h
    rcases hp : processEntry args k0 v0 with e0 | st0
    · rw [hp] at h; exact Except.noConfusion h
    · rw [hp] at h
      rcases hb : buildTableGo args rest with e1 | tbl1
      · rw [hb] at h; exact Except.noConfusion h
      · rw [hb] at h
        injection h with h2
        subst h2
        cases j with
        | zero =>
          simp at hj
          obtain ⟨rfl, rfl⟩ := hj
          exact ⟨st0, hp, rfl⟩
        | succ j2 =>
          simp only [List.get?_cons_succ] at hj
          obtain ⟨st, h1, h2⟩ := ih tbl1 hb j2 k v hj
          exact ⟨st, h1, by simpa using h2⟩

theorem mkCommand_ok_parts {args : List (JStr × Arg)}
    (h : (mkCommand args).isOk = true) :
    buildTableGo args args = .ok (mkCommandD args) ∧ posViolation args = false := by
  rcases hb : buildTableGo args args with e | tbl
  · exfalso
    unfold mkCommand at h
    simp only [hb] at h
    simp [Except.isOk, Except.toBool] at h
  · by_cases hp : posViolation args = true
    · exfalso
      unfold mkCommand at h
      simp only [hb] at h
      rw [if_pos hp] at h
      simp [Except.isOk, Except.toBool] at h
    · have hd : mkCommandD args = tbl := by
        unfold mkCommandD mkCommand
        simp only [hb]
        rw [if_neg hp]
      rw [hd]
      exact ⟨rfl, by simpa using hp⟩

theorem mkCommandD_entry {args : List (JStr × Arg)} {j : Nat} {k : JStr} {v : Arg}
    (h : (mkCommand args).isOk = true) (hj : args.get? j = some (k, v)) :
    processEntry args k v = .ok (getAt (mkCommandD args) j) := by
  obtain ⟨hb, _⟩ := mkCommand_ok_parts h
  obtain ⟨st, h1, h2⟩ := buildTableGo_ok_entry args args _ hb j k v hj
  rw [getAt_of_get? h2]
  exact h1

theorem processEntry_ok_mkState {args : List (JStr × Arg)} {k : JStr} {v : Arg}
    {st : ArgState} (h : processEntry args k v = .ok st) :
    mkState k (normSpec v) = .ok st := by
  unfold processEntry at h
  rcases h1 : v.conflicts.findSome? (fun other =>
      if (specLookup args other).isNone then some (conflictMissingMsg k other)
      else if other = k then some (conflictSelfMsg k) else none) with _ | e
  · rw [h1] at h
    rcases h2 : v.requires.findSome? (fun other =>
        if (specLookup args other).isNone then some (requireMissingMsg k other)
        else if k = other then some (requireSelfMsg k) else none) with _ | e
    · rw [h2] at h; exact h
    · rw [h2] at h; exact Except.noConfusion h
  · rw [h1] at h; exact Except.noConfusion h

/-! ## Positional ordering (claim C5) -/

theorem findIdxD_some_get? {α : Type} {p : α → Bool} {l : List α} :
    ∀ {i : Nat}, findIdxD p l = some i →
    ∃ x, l.get? i = some x ∧ p x = true ∧
      ∀ j x', j < i → l.get? j = some x' → p x' = false := by
  induction l with
  | nil => intro i h; simp [findIdxD] at h
  | cons a as ih =>
    intro i h
    by_cases ha : p a = true
    · simp [findIdxD, ha] at h
      subst h
      exact ⟨a, rfl, ha, fun j x' hj => by omega⟩
    · have ha' : p a = false := by simpa using ha
      simp [findIdxD, ha'] at h
      obtain ⟨i2, hi2, rfl⟩ := h
      obtain ⟨x, h1, h2, h3⟩ := ih hi2
      refine ⟨x, by simpa using h1, h2, ?_⟩
      intro j x' hj hx'
      cases j with
      | zero => simp at hx'; rw [← hx']; exact ha'
      | succ j2 =>
        simp only [List.get?_cons_succ] at hx'
        exact h3 j2 x' (by omega) hx'

theorem lastPosSpec_none {args : List (JStr × Arg)}
    (h : lastPosSpec args = none) :
    ∀ (j : Nat) (e : JStr × Arg), args.get? j = some e →
      isPositionalSpec e.2 = false := by
  induction args with
  | nil => intro j e hj; simp at hj
  | cons e0 rest ih =>
    intro j e hj
    rw [lastPosSpec] at h
    rcases hr : lastPosSpec rest with _ | l2
    · rw [hr] at h
      by_cases hp0 : isPositionalSpec e0.2 = true
      · simp [hp0] at h
      · cases j with
        | zero => simp at hj; rw [← hj]; simpa using hp0
        | succ j2 => exact ih hr j2 e (by simpa using hj)
    · rw [hr] at h; simp at h

theorem lastPosSpec_some {args : List (JStr × Arg)} :
    ∀ {l : Nat}, lastPosSpec args = some l →
    (∃ e, args.get? l = some e ∧ isPositionalSpec e.2 = true) ∧
    ∀ (j : Nat) (e : JStr × Arg), l < j → args.get? j = some e →
      isPositionalSpec e.2 = false := by
  induction args with
  | nil => intro l h; simp [lastPosSpec] at h
  | cons e0 rest ih =>
    intro l h
    rw [lastPosSpec] at h
    rcases hr : lastPosSpec rest with _ | l2
    · rw [hr] at h
      by_cases hp0 : isPositionalSpec e0.2 = true
      · simp [hp0] at h
        subst h
        refine ⟨⟨e0, rfl, hp0⟩, ?_⟩
        intro j e hj hje
        cases j with
        | zero => omega
        | succ j2 => exact lastPosSpec_none hr j2 e (by simpa using hje)
      · simp [hp0] at h
    · rw [hr] at h
      simp at h
      subst h
      obtain ⟨⟨e2, he2, hp2⟩, hmax⟩ := ih hr
      refine ⟨⟨e2, by simpa using he2, hp2⟩, ?_⟩
      intro j e hj hje
      cases j with
      | zero => omega
      | succ j2 => exact hmax j2 e (by omega) (by simpa using hje)

theorem lastPosSpec_ge {args : List (JStr × Arg)} {j : Nat} {e : JStr × Arg}
    (hj : args.get? j = some e) (hp : isPositionalSpec e.2 = true) :
    ∃ l, lastPosSpec args = some l ∧ j ≤ l := by
  rcases hl : lastPosSpec args with _ | l
  · exact absurd (lastPosSpec_none hl j e hj) (by simp [hp])
  · refine ⟨l, rfl, ?_⟩
    by_contra hlt
    push_neg at hlt
    exact absurd ((lastPosSpec_some hl).2 j e hlt hj) (by simp [hp])

theorem posViolation_iff (args : List (JStr × Arg)) :
    posViolation args = true ↔
      ∃ i j, i < j ∧
        (∃ e, args.get? i = some e ∧ isPositionalSpec e.2 = true ∧
          e.2.multi = true) ∧
        (∃ e, args.get? j = some e ∧ isPositionalSpec e.2 = true) := by
  unfold posViolation
  constructor
  · intro h
    rcases hf : firstMultiPos args with _ | f
    · rw [hf] at h; simp at h
    · rcases hl : lastPosSpec args with _ | l
      · rw [hf, hl] at h; simp at h
      · rw [hf, hl] at h
        simp at h
        unfold firstMultiPos at hf
        obtain ⟨x, hx1, hx2, _⟩ := findIdxD_some_get? hf
        simp only [Bool.and_eq_true] at hx2
        obtain ⟨⟨e2, he2, hp2⟩, _⟩ := lastPosSpec_some hl
        exact ⟨f, l, h, ⟨x, hx1, hx2.1, hx2.2⟩, ⟨e2, he2, hp2⟩⟩
  · rintro ⟨i, j, hij, ⟨e1, he1, hp1, hm1⟩, ⟨e2, he2, hp2⟩⟩
    have hsome : (findIdxD (fun e => isPositionalSpec e.2 && e.2.multi) args).isSome
        = true :=
      findIdxD_isSome_of_mem (List.get?_mem he1) (by simp [hp1, hm1])
    rcases hf : firstMultiPos args with _ | f
    · unfold firstMultiPos at hf; rw [hf] at hsome; simp at hsome
    · have hf2 := hf
      unfold firstMultiPos at hf2
      obtain ⟨x, hx1, hx2, hmin⟩ := findIdxD_some_get? hf2
      have hfi : f ≤ i := by
        by_contra hlt
        push_neg at hlt
        have := hmin i e1 hlt he1
        simp [hp1, hm1] at this
      obtain ⟨l, hl, hjl⟩ := lastPosSpec_ge he2 hp2
      simp only [hf, hl]
      simp
      omega

/-! ## Lemmas for claim C1 (alias lookup under unique ownership) -/

theorem shortsGet_unique {tbl : List ArgState} {a : ArgState} {c : Char}
    (ha : a ∈ tbl) (hc : a.flags.contains [c] = true)
    (hu : ∀ x ∈ tbl, x.flags.contains [c] = true → x = a) :
    shortsGet tbl c = a.takesValue := by
  unfold shortsGet
  rw [lastMatch_unique hu ha hc]

theorem longsGet_unique {tbl : List ArgState} {a : ArgState} {f : JStr}
    (hlen : 1 < f.length) (ha : a ∈ tbl) (hc : a.flags.contains f = true)
    (hu : ∀ x ∈ tbl, x.flags.contains f = true → x = a) :
    longsGet tbl f = a.takesValue := by
  unfold longsGet
  rw [if_pos hlen, lastMatch_unique hu ha hc]

theorem findIdxD_unique_pair {tbl : List ArgState} {a : ArgState}
    {p q : ArgState → Bool}
    (ha : a ∈ tbl) (hpa : p a = true) (hqa : q a = true)
    (hup : ∀ x ∈ tbl, p x = true → x = a)
    (huq : ∀ x ∈ tbl, q x = true → x = a) :
    ∃ j, findIdxD p tbl = some j ∧ findIdxD q tbl = some j ∧
      getAt tbl j = a ∧ j < tbl.length := by
  have hcong : findIdxD p tbl = findIdxD q tbl := by
    refine findIdxD_congr ?_
    intro x hx
    by_cases hxa : x = a
    · subst hxa; rw [hpa, hqa]
    · have hp' : p x = false := by
        rcases hb : p x with _ | _
        · rfl
        · exact absurd (hup x hx hb) hxa
      have hq' : q x = false := by
        rcases hb : q x with _ | _
        · rfl
        · exact absurd (huq x hx hb) hxa
      rw [hp', hq']
  have hsome := findIdxD_isSome_of_mem ha hpa
  rcases hj : findIdxD p tbl with _ | j
  · rw [hj] at hsome; simp at hsome
  · obtain ⟨h1, h2, _⟩ := findIdxD_some_spec hj
    exact ⟨j, rfl, hcong ▸ hj, hup _ (getAt_mem h1) h2, h1⟩

theorem matchesGet_buildMatches {t : List ArgState} :
    ∀ {j : Nat}, j < t.length →
    (∀ ix, ix < j → (getAt t ix).key ≠ (getAt t j).key) →
    matchesGet (buildMatches t) (getAt t j).key = some (valueOf (getAt t j)) := by
  induction t with
  | nil => intro j hj; simp at hj
  | cons x xs ih =>
    intro j hj hfirst
    cases j with
    | zero =>
      simp [matchesGet, buildMatches, findD, getAt_cons_zero]
    | succ j2 =>
      have hne : ¬x.key = (getAt xs j2).key := by
        have := hfirst 0 (Nat.succ_pos j2)
        simpa [getAt_cons_zero, getAt_cons_succ] using this
      have hj2 : j2 < xs.length := by simpa using hj
      have hf2 : ∀ ix, ix < j2 → (getAt xs ix).key ≠ (getAt xs j2).key := by
        intro ix hix
        have := hfirst (ix + 1) (by omega)
        simpa [getAt_cons_succ] using this
      have hrec := ih hj2 hf2
      rw [getAt_cons_succ]
      unfold matchesGet buildMatches at hrec ⊢
      rw [List.map_cons, findD, if_neg (by simpa using hne)]
      exact hrec

theorem matchTokens_flag_step {tbl : List ArgState} {s : JStr} {j : Nat}
    {a : ArgState} (v : JStr) (rest : List JStr)
    (hnd : ¬s = ddTok) (hg : getIdx tbl s = some j) (hja : getAt tbl j = a)
    (htv : a.takesValue = true) (hpo : a.isPositional = false) :
    matchTokens tbl (s :: v :: rest)
      = matchTokens (updAt j (pushVal v) (updAt j incOcc tbl)) rest := by
  rw [matchTokens, if_neg hnd]
  simp only [hg, hja, htv, hpo]
  simp

theorem c1_preSteps (tbl : List ArgState) (hsh : shortsGet tbl 'o' = true)
    (hlg : longsGet tbl "opt".toList = true) :
    preStep (shortsGet tbl) (longsGet tbl) "--opt=value".toList
        = .emit ["--opt".toList, "value".toList] false ∧
    preStep (shortsGet tbl) (longsGet tbl) "-o=value".toList
        = .emit ["-o".toList, "value".toList] false ∧
    preStep (shortsGet tbl) (longsGet tbl) "-ovalue".toList
        = .emit ["-o".toList, "value".toList] false ∧
    preStep (shortsGet tbl) (longsGet tbl) "-o".toList
        = .emit ["-o".toList] true ∧
    preStep (shortsGet tbl) (longsGet tbl) "--opt".toList
        = .emit ["--opt".toList] true := by
  refine ⟨?_, ?_, ?_, ?_, ?_⟩
  · unfold preStep
    rw [if_neg (by decide), if_pos (by decide)]
    simp only [show idxOfEq "--opt=value".toList = some 5 from by decide]
    rfl
  · unfold preStep
    rw [if_neg (by decide), if_neg (by decide), if_pos (by decide)]
    have hc : procCluster (shortsGet tbl) "o=value".toList
        = (["-o".toList, "value".toList], false) := by
      rw [procCluster.eq_def]
      simp [hsh]
    rw [show ("-o=value".toList.tail) = "o=value".toList from rfl, hc]
  · unfold preStep
    rw [if_neg (by decide), if_neg (by decide), if_pos (by decide)]
    have hc : procCluster (shortsGet tbl) "ovalue".toList
        = (["-o".toList, "value".toList], false) := by
      rw [procCluster.eq_def]
      simp [hsh]
    rw [show ("-ovalue".toList.tail) = "ovalue".toList from rfl, hc]
  · unfold preStep
    rw [if_neg (by decide), if_neg (by decide), if_pos (by decide)]
    have hc : procCluster (shortsGet tbl) ['o'] = (["-o".toList], true) := by
      rw [procCluster.eq_def]
      simp [hsh]
    rw [show ("-o".toList.tail) = ['o'] from rfl, hc]
  · unfold preStep
    rw [if_neg (by decide), if_pos (by decide)]
    simp only [show idxOfEq "--opt".toList = none from by decide]
    rw [show ("--opt".toList.drop 2) = "opt".toList from rfl, hlg]

theorem c1_getIdx (tbl : List ArgState) (a : ArgState)
    (ha : a ∈ tbl)
    (ho : a.flags.contains ['o'] = true)
    (hopt : a.flags.contains "opt".toList = true)
    (huo : ∀ x ∈ tbl, x.flags.contains ['o'] = true → x = a)
    (huopt : ∀ x ∈ tbl, x.flags.contains "opt".toList = true → x = a) :
    ∃ j, getIdx tbl "--opt".toList = some j ∧ getIdx tbl "-o".toList = some j ∧
      findIdxD (fun x => x.flags.contains "opt".toList) tbl = some j ∧
      getAt tbl j = a ∧ j < tbl.length := by
  obtain ⟨j, hfopt, hfo, hja, hjl⟩ := @findIdxD_unique_pair tbl a
    (fun x => x.flags.contains "opt".toList)
    (fun x => x.flags.contains ['o']) ha hopt ho huopt huo
  refine ⟨j, ?_, ?_, hfopt, hja, hjl⟩
  · unfold getIdx
    rw [if_pos (show startsWithD ddTok "--opt".toList = true from by decide)]
    rw [if_neg (show ¬("--opt".toList.length = 3) from by decide)]
    exact hfopt
  · unfold getIdx
    rw [if_neg (show ¬startsWithD ddTok "-o".toList = true from by decide)]
    rw [if_pos (show (decide (1 < "-o".toList.length)
      && startsWithD ['-'] "-o".toList) = true from by decide)]
    exact hfo

/-- C1: in any table that contains a flagged, non-`multi`, value-taking
argument that uniquely owns the short alias `o` and the long alias `opt`
(and uniquely owns its key), starting from fresh mutable state, the five
spellings `--opt=value`, `-o=value`, `-ovalue`, `-o value` and
`--opt value` produce the same parse result, and whenever that result is
a success the argument's collected value is `"value"`. -/
theorem claim1_five_spellings (tbl : List ArgState) (a : ArgState)
    (ha : a ∈ tbl)
    (ho : a.flags.contains ['o'] = true)
    (hopt : a.flags.contains "opt".toList = true)
    (htv : a.takesValue = true) (hpo : a.isPositional = false)
    (hmu : a.multi = false) (hoc : a.occurrences = 0) (hva : a.vals = [])
    (huo : ∀ x ∈ tbl, x.flags.contains ['o'] = true → x = a)
    (huopt : ∀ x ∈ tbl, x.flags.contains "opt".toList = true → x = a)
    (hkey : ∀ x ∈ tbl, x.key = a.key → x = a) :
    ((runParse tbl ["-o=value".toList]).2
        = (runParse tbl ["--opt=value".toList]).2 ∧
     (runParse tbl ["-ovalue".toList]).2
        = (runParse tbl ["--opt=value".toList]).2 ∧
     (runParse tbl ["-o".toList, "value".toList]).2
        = (runParse tbl ["--opt=value".toList]).2 ∧
     (runParse tbl ["--opt".toList, "value".toList]).2
        = (runParse tbl ["--opt=value".toList]).2) ∧
    ∀ m, (runParse tbl ["--opt=value".toList]).2 = .ok m →
      matchesGet m a.key = some (.one "value".toList) := by
  have hsh : shortsGet tbl 'o' = true := by
    rw [shortsGet_unique ha ho huo]; exact htv
  have hlg : longsGet tbl "opt".toList = true := by
    rw [longsGet_unique (by decide) ha hopt huopt]; exact htv
  obtain ⟨hps1, hps2, hps3, hps4, hps5⟩ := c1_preSteps tbl hsh hlg
  obtain ⟨j, hgopt, hgo, hfopt, hja, hjl⟩ := c1_getIdx tbl a ha ho hopt huo huopt
  have hp1 : preprocess (shortsGet tbl) (longsGet tbl) ["--opt=value".toList]
      = ["--opt".toList, "value".toList] := by
    rw [preprocess.eq_5 _ _ _ _ _ hps1, preprocess.eq_1, List.append_nil]
  have hp2 : preprocess (shortsGet tbl) (longsGet tbl) ["-o=value".toList]
      = ["-o".toList, "value".toList] := by
    rw [preprocess.eq_5 _ _ _ _ _ hps2, preprocess.eq_1, List.append_nil]
  have hp3 : preprocess (shortsGet tbl) (longsGet tbl) ["-ovalue".toList]
      = ["-o".toList, "value".toList] := by
    rw [preprocess.eq_5 _ _ _ _ _ hps3, preprocess.eq_1, List.append_nil]
  have hp4 : preprocess (shortsGet tbl) (longsGet tbl)
      ["-o".toList, "value".toList] = ["-o".toList, "value".toList] := by
    rw [preprocess.eq_4 _ _ _ _ _ _ hps4, preprocess.eq_1]
    rfl
  have hp5 : preprocess (shortsGet tbl) (longsGet tbl)
      ["--opt".toList, "value".toList] = ["--opt".toList, "value".toList] := by
    rw [preprocess.eq_4 _ _ _ _ _ _ hps5, preprocess.eq_1]
    rfl
  have hmA : matchTokens tbl ["--opt".toList, "value".toList]
      = (updAt j (pushVal "value".toList) (updAt j incOcc tbl), none) := by
    rw [matchTokens_flag_step "value".toList [] (by decide) hgopt hja htv hpo,
      matchTokens]
  have hmB : matchTokens tbl ["-o".toList, "value".toList]
      = (updAt j (pushVal "value".toList) (updAt j incOcc tbl), none) := by
    rw [matchTokens_flag_step "value".toList [] (by decide) hgo hja htv hpo,
      matchTokens]
  have hcore : ∀ (argv canon : List JStr),
      preprocess (shortsGet tbl) (longsGet tbl) argv = canon →
      matchTokens tbl canon
        = (updAt j (pushVal "value".toList) (updAt j incOcc tbl), none) →
      runParse tbl argv =
        (match validateFrom (updAt j (pushVal "value".toList) (updAt j incOcc tbl))
            (List.range
              (updAt j (pushVal "value".toList) (updAt j incOcc tbl)).length) with
         | (t, some (.err m)) => (t, ParseResult.error m)
         | (t, some (.help b)) => (t, ParseResult.help b)
         | (t2, none) => (t2, ParseResult.ok (buildMatches t2))) := by
    intro argv canon hpre hm
    unfold runParse
    rw [hpre]
    simp only [hm]
  have e1 := hcore _ _ hp1 hmA
  have e2 := hcore _ _ hp2 hmB
  have e3 := hcore _ _ hp3 hmB
  have e4 := hcore _ _ hp4 hmB
  have e5 := hcore _ _ hp5 hmA
  refine ⟨⟨by rw [e2, e1], by rw [e3, e1], by rw [e4, e1], by rw [e5, e1]⟩, ?_⟩
  intro m hok
  rw [e1] at hok
  rcases hv : validateFrom (updAt j (pushVal "value".toList) (updAt j incOcc tbl))
      (List.range (updAt j (pushVal "value".toList) (updAt j incOcc tbl)).length)
    with ⟨t2, h2⟩
  simp only [hv] at hok
  cases h2 with
  | some h =>
    cases h with
    | err msg => simp at hok
    | help b => simp at hok
  | none =>
    simp only [] at hok
    have hok2 : buildMatches t2 = m := by
      have := hok
      simpa using this
    have hTlen : (updAt j (pushVal "value".toList) (updAt j incOcc tbl)).length
        = tbl.length := by rw [length_updAt, length_updAt]
    have hjlT : j < (updAt j (pushVal "value".toList) (updAt j incOcc tbl)).length := by
      rw [hTlen]; exact hjl
    have hTj : getAt (updAt j (pushVal "value".toList) (updAt j incOcc tbl)) j
        = pushVal "value".toList (incOcc a) := by
      rw [getAt_updAt_eq _ _ _ (by rw [length_updAt]; exact hjl)]
      rw [getAt_updAt_eq _ _ _ hjl, hja]
    have hTocc : (getAt (updAt j (pushVal "value".toList) (updAt j incOcc tbl)) j).occurrences
        = 1 := by
      rw [hTj]; simp [pushVal, incOcc, hoc]
    have hev : EvolvedL (updAt j (pushVal "value".toList) (updAt j incOcc tbl)) t2 := by
      have h0 := evolved_validateFrom
        (List.range (updAt j (pushVal "value".toList) (updAt j incOcc tbl)).length)
        (updAt j (pushVal "value".toList) (updAt j incOcc tbl))
      rw [hv] at h0
      exact h0
    have ht2j : getAt t2 j
        = getAt (updAt j (pushVal "value".toList) (updAt j incOcc tbl)) j :=
      (hev.getAt_spec j).2.2 (by rw [hTocc]; omega)
    have hjl2 : j < t2.length := by rw [hev.length_eq]; exact hjlT
    have hkeyj : (getAt t2 j).key = a.key := by
      rw [ht2j, hTj]; simp [pushVal, incOcc]
    have hfirst : ∀ ix, ix < j → (getAt t2 ix).key ≠ (getAt t2 j).key := by
      intro ix hix hcon
      have hk2 : (getAt t2 ix).key
          = (getAt (updAt j (pushVal "value".toList) (updAt j incOcc tbl)) ix).key :=
        key_of_resetArg_eq (hev.getAt_spec ix).1
      have hTix : getAt (updAt j (pushVal "value".toList) (updAt j incOcc tbl)) ix
          = getAt tbl ix := by
        rw [getAt_updAt_ne _ _ _ _ (by omega), getAt_updAt_ne _ _ _ _ (by omega)]
      have hkix : (getAt tbl ix).key = a.key := by
        rw [← hTix, ← hk2, hcon, hkeyj]
      have hmemix : getAt tbl ix ∈ tbl := getAt_mem (by omega)
      have hxa : getAt tbl ix = a := hkey _ hmemix hkix
      obtain ⟨_, _, hmin⟩ := findIdxD_some_spec hfopt
      have hfin := hmin ix hix
      rw [hxa, hopt] at hfin
      exact Bool.noConfusion hfin
    have hlook := matchesGet_buildMatches hjl2 hfirst
    rw [hkeyj] at hlook
    have hvalOf : valueOf (getAt t2 j) = .one "value".toList := by
      rw [ht2j, hTj]
      unfold valueOf
      simp [pushVal, incOcc, htv, hmu, hva]
    rw [hvalOf] at hlook
    rw [← hok2]
    exact hlook

/-- Schema for the C1 witness: one argument with aliases `o` and `opt`
taking a single value. -/
def c1args : List (JStr × Arg) :=
  [("opt".toList, { flags := ["o".toList, "opt".toList], takesValue := true })]

/-- The table built from `c1args`. -/
def c1tbl : List ArgState := mkCommandD c1args

/-- Witness for C1: the five spellings agree on the concrete one-argument
schema `{opt: {flags: ["o","opt"], takesValue: true}}`. -/
theorem claim1_witness :
    ((runParse c1tbl ["-o=value".toList]).2
        = (runParse c1tbl ["--opt=value".toList]).2 ∧
     (runParse c1tbl ["-ovalue".toList]).2
        = (runParse c1tbl ["--opt=value".toList]).2 ∧
     (runParse c1tbl ["-o".toList, "value".toList]).2
        = (runParse c1tbl ["--opt=value".toList]).2 ∧
     (runParse c1tbl ["--opt".toList, "value".toList]).2
        = (runParse c1tbl ["--opt=value".toList]).2) ∧
    ∀ m, (runParse c1tbl ["--opt=value".toList]).2 = .ok m →
      matchesGet m (getAt c1tbl 0).key = some (.one "value".toList) :=
  claim1_five_spellings c1tbl (getAt c1tbl 0)
    (getAt_mem (by decide))
    (by decide) (by decide) (by decide) (by decide) (by decide)
    (by decide) (by decide)
    (by
      intro x hx _
      have hlist : c1tbl = [getAt c1tbl 0] := rfl
      rw [hlist] at hx
      simpa using hx)
    (by
      intro x hx _
      have hlist : c1tbl = [getAt c1tbl 0] := rfl
      rw [hlist] at hx
      simpa using hx)
    (by
      intro x hx _
      have hlist : c1tbl = [getAt c1tbl 0] := rfl
      rw [hlist] at hx
      simpa using hx)

/-- C2 (amended): for every alias lookup table and every raw token list,
the tokenizer output is canonical in the sense of `Canon`: up to the
first literal `--` (everything after which is copied verbatim), tokens in
flag position are single-character short flags or `=`-free long flags —
never a combined short-flag cluster and never an `=`-joined long flag —
and every value-bearing flag token is immediately followed by its value
token or ends the list. -/
theorem claim2_canonical_output (sh : Char → Bool) (lg : JStr → Bool)
    (argv : List JStr) : Canon sh lg (preprocess sh lg argv) :=
  canon_preprocess_aux sh lg argv.length argv (Nat.le_refl _)

/-- Schema for the C2 counterexample: two short boolean flags `a`, `b`. -/
def c2args : List (JStr × Arg) :=
  [("a".toList, { flags := ["a".toList] }),
   ("b".toList, { flags := ["b".toList] })]

/-- C2 counterexample: the claim quantifies over the whole output
including tokens after a literal `--`, but those are copied verbatim, so
with `a` and `b` declared short flags the output of `["--", "-ab"]`
contains the combined short-flag cluster `-ab`. -/
theorem claim2_counterexample :
    preprocess (shortsGet (mkCommandD c2args)) (longsGet (mkCommandD c2args))
        [ddTok, "-ab".toList] = [ddTok, "-ab".toList] ∧
    "-ab".toList ∈ preprocess (shortsGet (mkCommandD c2args))
        (longsGet (mkCommandD c2args)) [ddTok, "-ab".toList] ∧
    isPlainTok "-ab".toList = false ∧
    startsWithD ddTok "-ab".toList = false ∧
    startsWithD ['-'] "-ab".toList = true ∧
    2 < "-ab".toList.length ∧
    (getAt (mkCommandD c2args) 0).flags.contains ['a'] = true ∧
    (getAt (mkCommandD c2args) 1).flags.contains ['b'] = true := by
  decide

/-- C3 (amended): during construction, an argument with a non-empty
`possible` list gets `takesValue` forced to true and its validator
replaced by the generated membership check, which folds case on both
sides when `ignoreCase` is set, accepts exactly the strings matching a
member under that folding, and on mismatch reports
`value must be one of <possible, comma-joined>` — with no square
brackets around the list (JS array interpolation). -/
theorem claim3_possible_membership (args : List (JStr × Arg)) (j : Nat)
    (k : JStr) (v : Arg) (hok : (mkCommand args).isOk = true)
    (hj : args.get? j = some (k, v)) (hne : ¬v.possible.isEmpty) :
    (getAt (mkCommandD args) j).takesValue = true ∧
    (getAt (mkCommandD args) j).validate
      = some (possibleValidator v.possible v.ignoreCase) ∧
    (∀ s, possibleValidator v.possible v.ignoreCase s = none ↔
      ∃ p ∈ v.possible,
        (if v.ignoreCase then jsToUpper s else s)
          = (if v.ignoreCase then jsToUpper p else p)) ∧
    ∀ s, possibleValidator v.possible v.ignoreCase s ≠ none →
      possibleValidator v.possible v.ignoreCase s
        = some ("value must be one of ".toList ++ joinComma v.possible) := by
  have hpe := mkCommandD_entry hok hj
  have hms := processEntry_ok_mkState hpe
  obtain ⟨_, _, _, _, _, _, _, hval, _, htv⟩ := mkState_ok_spec hms
  obtain ⟨hns1, hns2⟩ := normSpec_possible v hne
  refine ⟨htv hns1, by rw [hval, hns2], ?_, ?_⟩
  · intro s
    unfold possibleValidator
    simp only []
    by_cases hany : (v.possible.any (fun val =>
        (if v.ignoreCase then jsToUpper s else s)
          = (if v.ignoreCase then jsToUpper val else val))) = true
    · rw [if_pos hany]
      constructor
      · intro _
        simpa [List.any_eq_true] using hany
      · intro _; rfl
    · rw [if_neg hany]
      constructor
      · intro h; exact Option.noConfusion h
      · intro hex
        exfalso
        apply hany
        simpa [List.any_eq_true] using hex
  · intro s hs
    unfold possibleValidator at hs ⊢
    simp only [] at hs ⊢
    by_cases hany : (v.possible.any (fun val =>
        (if v.ignoreCase then jsToUpper s else s)
          = (if v.ignoreCase then jsToUpper val else val))) = true
    · rw [if_pos hany] at hs
      exact absurd rfl hs
    · rw [if_neg hany]
      rfl

/-- Schema for the C3 theorems: `possible = ["a","b"]`. -/
def c3args : List (JStr × Arg) :=
  [("x".toList, { flags := ["x".toList],
                  possible := ["a".toList, "b".toList] })]

/-- C3 counterexample: the generated mismatch message carries no square
brackets: validating `"c"` against `possible = ["a","b"]` yields
`value must be one of a,b`, not `value must be one of [a,b]`. -/
theorem claim3_counterexample :
    applyValidate (getAt (mkCommandD c3args) 0) "c".toList
      = some "value must be one of a,b".toList ∧
    "value must be one of a,b".toList ≠ "value must be one of [a,b]".toList := by
  constructor
  · decide
  · decide

/-- Witness for C3 on the concrete schema `c3args`. -/
theorem claim3_witness :
    (mkCommand c3args).isOk = true ∧
    (getAt (mkCommandD c3args) 0).takesValue = true ∧
    possibleValidator ["a".toList, "b".toList] false "a".toList = none ∧
    possibleValidator ["a".toList, "b".toList] false "c".toList
      = some ("value must be one of ".toList
          ++ joinComma ["a".toList, "b".toList]) := by
  have C := claim3_possible_membership c3args 0 "x".toList
    { flags := ["x".toList], possible := ["a".toList, "b".toList] }
    (by decide) rfl (by decide)
  refine ⟨by decide, C.1, ?_, C.2.2.2 "c".toList (by decide)⟩
  exact (C.2.2.1 "a".toList).mpr ⟨"a".toList, by simp, by simp⟩

/-- C5: provided every per-entry schema check succeeds, construction
fails with the positional-ordering error exactly when some positional
marked `multi` is followed, in authoring order, by another positional;
in particular a schema whose only `multi` positional is the last
positional is accepted. -/
theorem claim5_multi_positional_last (args : List (JStr × Arg))
    (hok : (buildTableGo args args).isOk = true) :
    mkCommandErr args = some posOrderMsg ↔
      ∃ i j, i < j ∧
        (∃ e, args.get? i = some e ∧ isPositionalSpec e.2 = true ∧
          e.2.multi = true) ∧
        (∃ e, args.get? j = some e ∧ isPositionalSpec e.2 = true) := by
  rw [← posViolation_iff]
  rcases hb : buildTableGo args args with e | tbl
  · rw [hb] at hok; simp [Except.isOk, Except.toBool] at hok
  · unfold mkCommandErr mkCommand
    simp only [hb]
    by_cases hp : posViolation args = true
    · rw [if_pos hp]
      simp [hp]
    · rw [if_neg hp]
      simp
      simpa using hp

/-- Schema for the C5 witness: a `multi` positional followed by another
positional, rejected with the positional-ordering error. -/
def c5bad : List (JStr × Arg) :=
  [("y".toList, { multi := true }), ("x".toList, {})]

/-- Witness for C5: `c5bad` passes every per-entry check and is rejected
with exactly the positional-ordering error. -/
theorem claim5_witness :
    (buildTableGo c5bad c5bad).isOk = true ∧
    mkCommandErr c5bad = some posOrderMsg := by
  have C := claim5_multi_positional_last c5bad (by decide)
  refine ⟨by decide, C.mpr ?_⟩
  exact ⟨0, 1, by omega,
    ⟨("y".toList, { multi := true }), rfl, by decide, by decide⟩,
    ⟨("x".toList, {}), rfl, by decide⟩⟩

/-! ## Claims C6 and C7 -/

theorem lastPosIdx_some {tbl : List ArgState} : ∀ {j : Nat},
    lastPosIdx tbl = some j → (getAt tbl j).isPositional = true := by
  induction tbl with
  | nil => intro j h; simp [lastPosIdx] at h
  | cons a rest ih =>
    intro j h
    rw [lastPosIdx] at h
    rcases hr : lastPosIdx rest with _ | j2
    · rw [hr] at h
      by_cases hp : a.isPositional = true
      · simp [hp] at h
        rw [← h]
        exact hp
      · simp [hp] at h
    · rw [hr] at h
      simp at h
      rw [← h, getAt_cons_succ]
      exact ih hr

theorem getIdx_nil_positional (tbl : List ArgState) :
    ∀ i, getIdx tbl [] = some i → (getAt tbl i).isPositional = true := by
  intro i h
  unfold getIdx at h
  rw [if_neg (by decide), if_neg (by decide)] at h
  rcases hf : findIdxD (fun x => x.isPositional && x.occurrences = 0) tbl with _ | i0
  · rw [hf] at h
    rcases hl : lastPosIdx tbl with _ | j0
    · rw [hl] at h; simp at h
    · rw [hl] at h
      by_cases hm : (getAt tbl j0).multi = true
      · simp [hm] at h
        rw [← h]
        exact lastPosIdx_some hl
      · simp [hm] at h
  · rw [hf] at h
    simp at h
    subst h
    obtain ⟨_, h2, _⟩ := findIdxD_some_spec hf
    simp only [Bool.and_eq_true] at h2
    exact h2.1

/-- C6 (amended): once the matcher reaches a literal `--` token in
scanning position (i.e. one not already consumed as the value of a
preceding value-taking flag), the rest of the input is handled by the
positional-only loop: no non-positional entry is ever modified, every
slot it resolves is a positional, and when no open positional slot
exists it fails with `unexpected value <token>`. -/
theorem claim6_after_double_dash (tbl : List ArgState) (rest : List JStr) :
    matchTokens tbl (ddTok :: rest) = matchPositionals tbl rest ∧
    (∀ j, (getAt tbl j).isPositional = false →
      getAt (matchPositionals tbl rest).1 j = getAt tbl j) ∧
    (∀ i, getIdx tbl [] = some i → (getAt tbl i).isPositional = true) ∧
    (getIdx tbl [] = none → ∀ (v : JStr) (r : List JStr),
      matchPositionals tbl (v :: r)
        = (tbl, some (.err (unexpectedValueMsg v)))) := by
  have hpres : ∀ (ts : List JStr) (t : List ArgState) (j : Nat),
      (getAt t j).isPositional = false →
      getAt (matchPositionals t ts).1 j = getAt t j := by
    intro ts
    induction ts with
    | nil => intro t j _; rfl
    | cons v r ih =>
      intro t j h
      rw [matchPositionals]
      rcases hg : getIdx t [] with _ | i
      · simp only [hg]
      · simp only [hg]
        have hip : (getAt t i).isPositional = true := getIdx_nil_positional t i hg
        have hij : i ≠ j := by
          intro he
          rw [he, h] at hip
          exact Bool.noConfusion hip
        have hupd : getAt (updAt i (pushVal v ∘ incOcc) t) j = getAt t j :=
          getAt_updAt_ne _ _ _ _ hij
        rw [ih (updAt i (pushVal v ∘ incOcc) t) j (by rw [hupd]; exact h), hupd]
  refine ⟨by rw [matchTokens, if_pos rfl], hpres rest tbl, getIdx_nil_positional tbl, ?_⟩
  intro hnone v r
  rw [matchPositionals]
  simp only [hnone]

/-- Schema for the C6 theorems: `o` takes a value, `x` is a boolean
flag; there are no positionals. -/
def c6args : List (JStr × Arg) :=
  [("o".toList, { flags := ["o".toList], takesValue := true }),
   ("x".toList, { flags := ["x".toList] })]

/-- C6 counterexample: in the raw input `["-o", "--", "-x"]` the literal
`--` token is consumed as the value of `-o`, and `-x` — a token that
appears after a literal `--` token — is still resolved as the flag `x`:
the parse succeeds with `x` counted once instead of failing with
`unexpected value -x`. -/
theorem claim6_counterexample :
    (runParse (mkCommandD c6args) ["-o".toList, ddTok, "-x".toList]).2
      = .ok [("o".toList, .one ddTok), ("x".toList, .count 1)] ∧
    (runParse (mkCommandD c6args) ["-o".toList, ddTok, "-x".toList]).2
      ≠ .error (unexpectedValueMsg "-x".toList) := by
  decide

/-- Witness for C6: after a `--` in scanning position, on `c6args` (which
has no positionals) a following `-x` is not matched as a flag but
rejected as `unexpected value -x`, and the non-positional entries stay
untouched. -/
theorem claim6_witness :
    matchTokens (mkCommandD c6args) (ddTok :: ["-x".toList])
      = matchPositionals (mkCommandD c6args) ["-x".toList] ∧
    getAt (matchPositionals (mkCommandD c6args) ["-x".toList]).1 1
      = getAt (mkCommandD c6args) 1 ∧
    matchPositionals (mkCommandD c6args) ["-x".toList]
      = (mkCommandD c6args, some (.err (unexpectedValueMsg "-x".toList))) := by
  have C := claim6_after_double_dash (mkCommandD c6args) ["-x".toList]
  exact ⟨C.1, C.2.1 1 (by decide), C.2.2.2 (by decide) "-x".toList []⟩

/-- JS-side cross-reference well-formedness of one entry: every
`conflicts`/`requires` key exists in the schema and is not the entry's
own key. -/
def crossRefsOk (args : List (JStr × Arg)) (k : JStr) (v : Arg) : Bool :=
  (v.conflicts.all fun o => (specLookup args o).isSome && decide (¬o = k)) &&
  (v.requires.all fun o => (specLookup args o).isSome && decide (¬o = k))

theorem findSomeD_none {α β : Type} {f : α → Option β} {l : List α}
    (h : ∀ x ∈ l, f x = none) : l.findSome? f = none := by
  induction l with
  | nil => rfl
  | cons a as ih =>
    have ha := h a (List.mem_cons_self a as)
    rw [List.findSome?_cons, ha]
    exact ih (fun x hx => h x (List.mem_cons_of_mem a hx))

theorem processEntry_of_crossRefsOk {args : List (JStr × Arg)} {k : JStr}
    {v : Arg} (h : crossRefsOk args k v = true) :
    processEntry args k v = mkState k (normSpec v) := by
  unfold crossRefsOk at h
  simp only [Bool.and_eq_true, List.all_eq_true] at h
  obtain ⟨hc, hr⟩ := h
  unfold processEntry
  rw [findSomeD_none (fun o ho => by
    obtain ⟨h1, h2⟩ := hc o ho
    rw [if_neg (by
      intro hN
      rw [Option.isNone_iff_eq_none] at hN
      rw [hN] at h1
      simp at h1)]
    rw [if_neg (by simpa using h2)])]
  rw [findSomeD_none (fun o ho => by
    obtain ⟨h1, h2⟩ := hr o ho
    rw [if_neg (by
      intro hN
      rw [Option.isNone_iff_eq_none] at hN
      rw [hN] at h1
      simp at h1)]
    rw [if_neg (fun hx => (by simpa using h2 : ¬o = k) hx.symm)])]

/-- C7 (amended): when the table is built, every alias is stripped of
its leading hyphens (`--foo` and `foo` are equivalent); the per-entry
empty-flag schema error occurs exactly when the entry declares a
non-empty flag list all of whose aliases strip to the empty string — an
entry that also declares a non-empty alias is accepted. -/
theorem claim7_alias_stripping (args : List (JStr × Arg)) :
    (∀ (j : Nat) (k : JStr) (v : Arg), (mkCommand args).isOk = true →
      args.get? j = some (k, v) →
      (getAt (mkCommandD args) j).flags = v.flags.map stripFlag) ∧
    (∀ (k : JStr) (v : Arg), crossRefsOk args k v = true →
      (processEntry args k v = .error (emptyFlagMsg k) ↔
        (¬v.flags.isEmpty ∧ ∀ f ∈ v.flags, stripFlag f = []))) := by
  constructor
  · intro j k v hok hj
    have hpe := mkCommandD_entry hok hj
    have hms := processEntry_ok_mkState hpe
    obtain ⟨_, _, _, hflags, _⟩ := mkState_ok_spec hms
    rw [hflags, (normSpec_stable v).1]
  · intro k v hcr
    rw [processEntry_of_crossRefsOk hcr, mkState_error_iff, (normSpec_stable v).1]

/-- Schema for the C7 theorems: the empty alias next to `opt`. -/
def c7args : List (JStr × Arg) :=
  [("x".toList, { flags := ["".toList, "opt".toList] })]

/-- C7 counterexample: an argument declaring an empty alias alongside a
non-empty one is accepted by construction — the claim predicts a schema
error; the empty alias even survives into the table. -/
theorem claim7_counterexample :
    (mkCommand c7args).isOk = true ∧
    stripFlag "".toList = [] ∧
    [] ∈ (getAt (mkCommandD c7args) 0).flags := by
  decide

/-- Witness for C7: stripping on `c7args`, and an all-empty-alias entry
(`-`, `--`) rejected with exactly the empty-flag error. -/
theorem claim7_witness :
    (mkCommand c7args).isOk = true ∧
    (getAt (mkCommandD c7args) 0).flags
      = ["".toList, "opt".toList].map stripFlag ∧
    crossRefsOk c7args "z".toList { flags := ["-".toList, "--".toList] } = true ∧
    processEntry c7args "z".toList { flags := ["-".toList, "--".toList] }
      = .error (emptyFlagMsg "z".toList) := by
  have C := claim7_alias_stripping c7args
  refine ⟨by decide,
    C.1 0 "x".toList { flags := ["".toList, "opt".toList] } (by decide) rfl,
    by decide, ?_⟩
  exact (C.2 "z".toList { flags := ["-".toList, "--".toList] } (by decide)).mpr
    ⟨by decide, by decide⟩

/-! ## Validation-step shapes (claims C4, C8, C10) -/

theorem getAt_out_of_range {tbl : List ArgState} {i : Nat}
    (h : tbl.length ≤ i) : getAt tbl i = defaultArg := by
  induction tbl generalizing i with
  | nil => exact getAt_nil i
  | cons x xs ih =>
    cases i with
    | zero => simp at h
    | succ j =>
      rw [getAt_cons_succ]
      exact ih (by simpa using h)

theorem validateStep_conflict {tbl : List ArgState} {i : Nat} {o : ArgState}
    (h : conflictFind tbl (getAt tbl i) = some o) :
    validateStep tbl i
      = (tbl, some (.err (conflictMsg (getAt tbl i).name o.name))) := by
  unfold validateStep
  simp only [h]

theorem validateStep_requires {tbl : List ArgState} {i : Nat} {o : ArgState}
    (hc : conflictFind tbl (getAt tbl i) = none)
    (hq : requireFind tbl (getAt tbl i) = some o) :
    validateStep tbl i
      = (tbl, some (.err (requiresPresentMsg (getAt tbl i).name o.name))) := by
  unfold validateStep
  simp only [hc, hq]

theorem validateStep_msg_shape {tbl : List ArgState} {i : Nat}
    (h : 0 < (getAt tbl i).occurrences)
    (hc : conflictFind tbl (getAt tbl i) = none)
    (hq : requireFind tbl (getAt tbl i) = none) :
    validateStep tbl i = (tbl, some (.err (onceMsg (getAt tbl i).name)))
    ∨ validateStep tbl i = (tbl, none)
    ∨ ∃ v r, validateStep tbl i
        = (tbl, some (.err (failedValidationMsg v (getAt tbl i).name r))) := by
  unfold validateStep
  simp only [hc, hq]
  by_cases h1 : ¬(getAt tbl i).multi = true ∧ 1 < (getAt tbl i).occurrences
  · rw [if_pos h1]; left; rfl
  · rw [if_neg h1]
    by_cases h2 : ¬(getAt tbl i).takesValue = true
    · rw [if_pos h2]; right; left; rfl
    · rw [if_neg h2]
      rw [if_neg (fun hx => absurd hx.2 (by omega))]
      rcases hdef : (getAt tbl i).default with _ | d
      · simp only [hdef]
        rcases hfs : (getAt tbl i).vals.findSome? (fun v =>
            (applyValidate (getAt tbl i) v).map (fun rr => (v, rr))) with _ | p
        · simp only [hfs]; right; left; trivial
        · rcases p with ⟨v, r⟩
          simp only [hfs]
          right; right
          exact ⟨v, r, rfl⟩
      · simp only [hdef]
        rw [if_neg (by omega)]
        rcases hfs : (getAt tbl i).vals.findSome? (fun v =>
            (applyValidate (getAt tbl i) v).map (fun rr => (v, rr))) with _ | p
        · simp only [hfs]; right; left; trivial
        · rcases p with ⟨v, r⟩
          simp only [hfs]
          right; right
          exact ⟨v, r, rfl⟩

theorem validateStep_bad_default {tbl : List ArgState} {i : Nat} {d r : JStr}
    (htv : (getAt tbl i).takesValue = true)
    (hoc : (getAt tbl i).occurrences = 0)
    (hrq : (getAt tbl i).required = false)
    (hd : (getAt tbl i).default = some d)
    (hv : applyValidate (getAt tbl i) d = some r) :
    validateStep tbl i
      = (updAt i (fun a => { a with vals := [d] }) tbl,
         some (.err (failedValidationMsg d (getAt tbl i).name r))) := by
  have hlen : i < tbl.length := by
    by_contra hge
    push_neg at hge
    rw [getAt_out_of_range hge] at htv
    exact Bool.noConfusion htv
  have hcf : conflictFind tbl (getAt tbl i) = none := by
    unfold conflictFind
    rw [if_neg (fun hx => absurd hx.1 (by omega))]
  have hrf : requireFind tbl (getAt tbl i) = none := by
    unfold requireFind
    rw [if_neg (fun hx => absurd hx.1 (by omega))]
  unfold validateStep
  simp only [hcf, hrf]
  rw [if_neg (fun hx => absurd hx.2 (by omega))]
  rw [if_neg (by rw [htv]; simp)]
  rw [if_neg (fun hx => absurd hx.1 (by rw [hrq]; simp))]
  simp only [hd, if_pos hoc]
  have hg2 : getAt (updAt i (fun a => { a with vals := [d] }) tbl) i
      = { getAt tbl i with vals := [d] } := getAt_updAt_eq _ _ _ hlen
  simp only [hg2]
  have happ : applyValidate { getAt tbl i with vals := [d] } d = some r := by
    unfold applyValidate at hv ⊢
    exact hv
  simp [List.findSome?_cons, happ]

theorem validateStep_isSome_conflict_evolved {tbl : List ArgState} {i : Nat}
    (h : (conflictFind tbl (getAt tbl i)).isSome = true) :
    ∀ t', EvolvedL tbl t' → (validateStep t' i).2.isSome = true := by
  intro t' he
  have hcorr := conflictFind_isSome_evolved he i
  rw [h] at hcorr
  rcases ho : conflictFind t' (getAt t' i) with _ | o
  · rw [ho] at hcorr; simp at hcorr
  · rw [validateStep_conflict ho]
    rfl

theorem validateStep_isSome_default_evolved {tbl : List ArgState} {i : Nat}
    {d r : JStr}
    (htv : (getAt tbl i).takesValue = true)
    (hoc : (getAt tbl i).occurrences = 0)
    (hrq : (getAt tbl i).required = false)
    (hd : (getAt tbl i).default = some d)
    (hv : applyValidate (getAt tbl i) d = some r) :
    ∀ t', EvolvedL tbl t' → (validateStep t' i).2.isSome = true := by
  intro t' he
  obtain ⟨hr1, hr2, _⟩ := he.getAt_spec i
  obtain ⟨_, _, _, hreq', hdef', _, _, htv', hval', _, _⟩ := fields_of_resetArg_eq hr1
  have hstep := @validateStep_bad_default t' i d r
    (by rw [htv']; exact htv) (by rw [hr2]; exact hoc)
    (by rw [hreq']; exact hrq) (by rw [hdef']; exact hd)
    (by unfold applyValidate at hv ⊢; rw [hval']; exact hv)
  rw [hstep]
  rfl

/-! ## Claim C4: `requires` targets satisfied by defaults -/

theorem onceMsg_ne_requiresMsg (n n2 o : JStr) :
    onceMsg n ≠ requiresPresentMsg n2 o := by
  intro h
  have hrev := congrArg List.reverse h
  rw [onceMsg, requiresPresentMsg] at hrev
  simp only [List.reverse_append] at hrev
  obtain ⟨t1, ht1⟩ : ∃ t, (" can be specified only once".toList).reverse = 'e' :: t :=
    ⟨_, rfl⟩
  obtain ⟨t2, ht2⟩ : ∃ t, (" to be present".toList).reverse = 't' :: t :=
    ⟨_, rfl⟩
  rw [ht1, ht2, List.cons_append, List.cons_append] at hrev
  injection hrev with h1 _
  exact absurd h1 (by decide)

theorem failedMsg_ne_requiresMsg (v n r n2 o : JStr) :
    failedValidationMsg v n r ≠ requiresPresentMsg n2 o := by
  intro h
  rw [failedValidationMsg, requiresPresentMsg] at h
  obtain ⟨t1, ht1⟩ : ∃ t, "failed to validate the '".toList = 'f' :: t := ⟨_, rfl⟩
  obtain ⟨t2, ht2⟩ : ∃ t, "using ".toList = 'u' :: t := ⟨_, rfl⟩
  simp only [List.append_assoc] at h
  rw [ht1, ht2, List.cons_append, List.cons_append] at h
  injection h with h1 _
  exact absurd h1 (by decide)

/-- The spec's worked example for defaulted `requires` targets. -/
def c4args : List (JStr × Arg) :=
  [("a".toList, { flags := ["a".toList], requires := ["b".toList] }),
   ("b".toList, { flags := ["b".toList], default := some "default".toList })]

/-- C4 (amended): after matching, a supplied argument whose conflict check
passes fails the requirement check — producing the `using X requires Y to be
present` error — if and only if some `requires` target *without a declared
default* has zero occurrences; a target with a default satisfies the
requirement even when absent.  On the schema where `a` requires `b` and `b`
has default `"default"`, parsing `["-a"]` succeeds with `{a: 1, b: "default"}`.
(The original claim's "fails ... whenever a required target is absent" is
wrong for defaulted targets, and an earlier argument's error can also
pre-empt this one.) -/
theorem claim4_requires_default :
    (∀ (tbl : List ArgState) (i : Nat),
      0 < (getAt tbl i).occurrences →
      conflictFind tbl (getAt tbl i) = none →
      ((∃ o : ArgState, validateStep tbl i
          = (tbl, some (.err (requiresPresentMsg (getAt tbl i).name o.name)))) ↔
       ∃ o ∈ ((getAt tbl i).requires.filterMap (argsGet tbl)).filter
           (fun x => x.default = none), o.occurrences = 0)) ∧
    (runParse (mkCommandD c4args) ["-a".toList]).2
      = .ok [("a".toList, .count 1), ("b".toList, .one "default".toList)] := by
  constructor
  · intro tbl i h hc
    constructor
    · rintro ⟨o, hstep⟩
      rcases hq : requireFind tbl (getAt tbl i) with _ | o₀
      · rcases validateStep_msg_shape h hc hq with h1 | h1 | ⟨v, r, h1⟩
        · rw [h1] at hstep
          injection hstep with _ h2
          injection h2 with h3
          injection h3 with h4
          exact absurd h4 (onceMsg_ne_requiresMsg _ _ _)
        · rw [h1] at hstep
          injection hstep with _ h2
          exact Option.noConfusion h2
        · rw [h1] at hstep
          injection hstep with _ h2
          injection h2 with h3
          injection h3 with h4
          exact absurd h4 (failedMsg_ne_requiresMsg _ _ _ _ _)
      · have hcond : 0 < (getAt tbl i).occurrences
            ∧ ¬(getAt tbl i).requires.isEmpty = true := by
          by_contra hcn
          unfold requireFind at hq
          rw [if_neg hcn] at hq
          exact Option.noConfusion hq
        have hq2 : findD (fun x => x.occurrences = 0)
            (((getAt tbl i).requires.filterMap (argsGet tbl)).filter
              (fun x => x.default = none)) = some o₀ := by
          rw [← hq]; unfold requireFind; rw [if_pos hcond]
        obtain ⟨hmem, hp⟩ := findD_some_mem hq2
        exact ⟨o₀, hmem, by simpa using hp⟩
    · rintro ⟨o, hmem, hocc0⟩
      have hne : ¬(getAt tbl i).requires.isEmpty = true := by
        intro he
        have hnil : (getAt tbl i).requires = [] := by
          cases hx : (getAt tbl i).requires
          · rfl
          · rw [hx] at he; simp [List.isEmpty] at he
        rw [hnil] at hmem
        simp at hmem
      have hrf : (requireFind tbl (getAt tbl i)).isSome = true := by
        unfold requireFind
        rw [if_pos ⟨h, hne⟩]
        exact findD_isSome_of_mem hmem (by simpa using hocc0)
      rcases ho : requireFind tbl (getAt tbl i) with _ | o₀
      · rw [ho] at hrf; simp at hrf
      · exact ⟨o₀, validateStep_requires hc ho⟩
  · decide

/-- Schema where `a` both conflicts with `c` and requires the absent `b`. -/
def c4cex : List (JStr × Arg) :=
  [("a".toList, { flags := ["a".toList], conflicts := ["c".toList],
                  requires := ["b".toList] }),
   ("b".toList, { flags := ["b".toList] }),
   ("c".toList, { flags := ["c".toList] })]

/-- The table after matching `["-a", "-c"]` against `c4cex`. -/
def c4cexT : List ArgState :=
  (matchTokens (mkCommandD c4cex)
    (preprocess (shortsGet (mkCommandD c4cex)) (longsGet (mkCommandD c4cex))
      ["-a".toList, "-c".toList])).1

/-- C4 counterexample: `a` requires the absent, defaultless `b`, yet the
parse reports the conflict with `c` instead of the `requires` message —
the claim's "whenever" does not hold at the level of the reported error. -/
theorem claim4_counterexample :
    (runParse (mkCommandD c4cex) ["-a".toList, "-c".toList]).2
      = .error (conflictMsg "-a".toList "-c".toList) ∧
    0 < (getAt c4cexT 0).occurrences ∧
    "b".toList ∈ (getAt c4cexT 0).requires ∧
    (argsGet c4cexT "b".toList).map (fun o => (o.occurrences, o.default))
      = some (0, none) ∧
    (runParse (mkCommandD c4cex) ["-a".toList, "-c".toList]).2
      ≠ .error (requiresPresentMsg "-a".toList "-b".toList) := by
  decide

/-- Schema where `a` requires the absent, defaultless `b`. -/
def c4wargs : List (JStr × Arg) :=
  [("a".toList, { flags := ["a".toList], requires := ["b".toList] }),
   ("b".toList, { flags := ["b".toList] })]

/-- The table after matching `["-a"]` against `c4wargs`. -/
def c4wT : List ArgState :=
  (matchTokens (mkCommandD c4wargs) ["-a".toList]).1

theorem claim4_witness :
    0 < (getAt c4wT 0).occurrences ∧
    conflictFind c4wT (getAt c4wT 0) = none ∧
    (∃ o : ArgState, validateStep c4wT 0
        = (c4wT, some (.err (requiresPresentMsg (getAt c4wT 0).name o.name)))) := by
  refine ⟨by decide, rfl, ?_⟩
  exact (claim4_requires_default.1 c4wT 0 (by decide) rfl).mpr
    ⟨getAt c4wT 1, by
      rw [show ((getAt c4wT 0).requires.filterMap (argsGet c4wT)).filter
          (fun x => x.default = none) = [getAt c4wT 1] from rfl]
      exact List.mem_cons_self _ _, by decide⟩

/-! ## Claim C8: mutual conflicts -/

/-- C8 (amended): if argument `i` declares a conflict with a key `bk` whose
entry `b` also has a positive count after matching, then `i`'s own validation
step fails with the `cannot be used together with` message (for its first
countered conflict target), and the validation phase as a whole halts with an
error — this holds whichever of the two flags was supplied first.  The
reported parse error, however, is whatever error the fail-fast loop reaches
first, which need not be this conflict message. -/
theorem claim8_conflicts (tbl : List ArgState) (i : Nat) (bk : JStr)
    (b : ArgState)
    (hlen : i < tbl.length)
    (hocc : 0 < (getAt tbl i).occurrences)
    (hbk : bk ∈ (getAt tbl i).conflicts)
    (hb : argsGet tbl bk = some b)
    (hbocc : 0 < b.occurrences) :
    (∃ o : ArgState, conflictFind tbl (getAt tbl i) = some o
      ∧ 0 < o.occurrences
      ∧ validateStep tbl i
          = (tbl, some (.err (conflictMsg (getAt tbl i).name o.name)))) ∧
    (validateFrom tbl (List.range tbl.length)).2.isSome = true := by
  have hne : ¬(getAt tbl i).conflicts.isEmpty = true := by
    intro he
    have hnil : (getAt tbl i).conflicts = [] := by
      cases hx : (getAt tbl i).conflicts
      · rfl
      · rw [hx] at he; simp [List.isEmpty] at he
    rw [hnil] at hbk
    simp at hbk
  have hcf : (conflictFind tbl (getAt tbl i)).isSome = true := by
    unfold conflictFind
    rw [if_pos ⟨hocc, hne⟩]
    exact findD_isSome_of_mem (List.mem_filterMap.mpr ⟨bk, hbk, hb⟩)
      (by simpa using hbocc)
  refine ⟨?_, validateFrom_halts (List.range tbl.length) tbl
    (List.mem_range.mpr hlen) (validateStep_isSome_conflict_evolved hcf)⟩
  rcases ho : conflictFind tbl (getAt tbl i) with _ | o
  · rw [ho] at hcf; simp at hcf
  · have ho2 : findD (fun x => 0 < x.occurrences)
        ((getAt tbl i).conflicts.filterMap (argsGet tbl)) = some o := by
      rw [← ho]; unfold conflictFind; rw [if_pos ⟨hocc, hne⟩]
    obtain ⟨_, hp⟩ := findD_some_mem ho2
    exact ⟨o, rfl, by simpa using hp, validateStep_conflict ho⟩

/-- Schema with a required `c` listed before the conflicting pair `a`, `b`. -/
def c8cex : List (JStr × Arg) :=
  [("c".toList, { flags := ["c".toList], required := true, takesValue := true }),
   ("a".toList, { flags := ["a".toList], conflicts := ["b".toList] }),
   ("b".toList, { flags := ["b".toList] })]

/-- The table after matching `["-a", "-b"]` against `c8cex`. -/
def c8cexT : List ArgState :=
  (matchTokens (mkCommandD c8cex)
    (preprocess (shortsGet (mkCommandD c8cex)) (longsGet (mkCommandD c8cex))
      ["-a".toList, "-b".toList])).1

/-- C8 counterexample: `a` and `b` are both supplied and conflict, yet the
parse reports the earlier argument's missing-required error, not the conflict
message the claim promises. -/
theorem claim8_counterexample :
    (runParse (mkCommandD c8cex) ["-a".toList, "-b".toList]).2
      = .error (missingRequiredMsg "-c <c>".toList) ∧
    0 < (getAt c8cexT 1).occurrences ∧
    "b".toList ∈ (getAt c8cexT 1).conflicts ∧
    (argsGet c8cexT "b".toList).map (fun o => o.occurrences) = some 1 ∧
    (runParse (mkCommandD c8cex) ["-a".toList, "-b".toList]).2
      ≠ .error (conflictMsg "-a".toList "-b".toList) ∧
    (runParse (mkCommandD c8cex) ["-a".toList, "-b".toList]).2
      ≠ .error (conflictMsg "-b".toList "-a".toList) := by
  decide

/-- Schema where `a` conflicts with `b`. -/
def c8wargs : List (JStr × Arg) :=
  [("a".toList, { flags := ["a".toList], conflicts := ["b".toList] }),
   ("b".toList, { flags := ["b".toList] })]

/-- The table after matching `["-a", "-b"]` against `c8wargs`. -/
def c8wT : List ArgState :=
  (matchTokens (mkCommandD c8wargs) ["-a".toList, "-b".toList]).1

theorem claim8_witness :
    (∃ o : ArgState, conflictFind c8wT (getAt c8wT 0) = some o
      ∧ 0 < o.occurrences
      ∧ validateStep c8wT 0
          = (c8wT, some (.err (conflictMsg (getAt c8wT 0).name o.name)))) ∧
    (validateFrom c8wT (List.range c8wT.length)).2.isSome = true :=
  claim8_conflicts c8wT 0 "b".toList (getAt c8wT 1)
    (by decide) (by decide) (by decide) rfl (by decide)

/-! ## Claim C10: defaults run through the validator -/

/-- C10 (amended): a value-taking argument with zero occurrences and a
declared default (hence `required` is `false` after normalisation) has the
default seeded into its values and run through its validator; when the
default is rejected, the argument's validation step fails with exactly
`failed to validate the '<default>' value of <name>: <reason>`, and the
validation phase as a whole halts with an error.  The reported parse error
is this message unless the fail-fast loop hits an earlier argument's error
first. -/
theorem claim10_default_validated (tbl : List ArgState) (i : Nat) (d r : JStr)
    (hlen : i < tbl.length)
    (htv : (getAt tbl i).takesValue = true)
    (hoc : (getAt tbl i).occurrences = 0)
    (hrq : (getAt tbl i).required = false)
    (hd : (getAt tbl i).default = some d)
    (hv : applyValidate (getAt tbl i) d = some r) :
    validateStep tbl i
      = (updAt i (fun a => { a with vals := [d] }) tbl,
         some (.err (failedValidationMsg d (getAt tbl i).name r))) ∧
    (validateFrom tbl (List.range tbl.length)).2.isSome = true :=
  ⟨validateStep_bad_default htv hoc hrq hd hv,
   validateFrom_halts (List.range tbl.length) tbl (List.mem_range.mpr hlen)
     (validateStep_isSome_default_evolved htv hoc hrq hd hv)⟩

/-- Schema with a required `r` listed before `d`, whose default `"bad"` is
outside its `possible` list. -/
def c10cex : List (JStr × Arg) :=
  [("r".toList, { flags := ["r".toList], required := true, takesValue := true }),
   ("d".toList, { flags := ["d".toList], default := some "bad".toList,
                  possible := ["good".toList] })]

/-- C10 counterexample: `d`'s default fails validation, yet the parse with no
input reports the earlier missing-required error, not the validation-failure
message the claim promises. -/
theorem claim10_counterexample :
    (runParse (mkCommandD c10cex) []).2
      = .error (missingRequiredMsg "-r <r>".toList) ∧
    (getAt (mkCommandD c10cex) 1).takesValue = true ∧
    (getAt (mkCommandD c10cex) 1).occurrences = 0 ∧
    (getAt (mkCommandD c10cex) 1).default = some "bad".toList ∧
    applyValidate (getAt (mkCommandD c10cex) 1) "bad".toList
      = some ("value must be one of good".toList) ∧
    (runParse (mkCommandD c10cex) []).2
      ≠ .error (failedValidationMsg "bad".toList "-d <d>".toList
          ("value must be one of good".toList)) := by
  constructor
  · decide
  refine ⟨by decide, by decide, by decide, rfl, by decide⟩

/-- Schema with a single argument whose default fails its own validation. -/
def c10wargs : List (JStr × Arg) :=
  [("d".toList, { flags := ["d".toList], default := some "bad".toList,
                  possible := ["good".toList] })]

/-- The freshly constructed table for `c10wargs`. -/
def c10wT : List ArgState := mkCommandD c10wargs

theorem claim10_witness :
    validateStep c10wT 0
      = (updAt 0 (fun a => { a with vals := ["bad".toList] }) c10wT,
         some (.err (failedValidationMsg "bad".toList (getAt c10wT 0).name
           ("value must be one of good".toList)))) ∧
    (validateFrom c10wT (List.range c10wT.length)).2.isSome = true :=
  claim10_default_validated c10wT 0 "bad".toList
    ("value must be one of good".toList)
    (by decide) (by decide) (by decide) (by decide) rfl rfl

/-! ## Claim C9: repeated parses on the same instance -/

/-- C9: if a fresh command whose table is in its initial state (occurrences
zero, no collected values) parses `argv` successfully, then parsing the same
`argv` again on the returned (mutated) instance yields the identical matches
and the identical instance: the second invocation starts from the reset
table, which coincides with the initial one. -/
theorem claim9_reparse (c : Command) (argv : List JStr)
    (m : List (JStr × Value)) (c' : Command)
    (hfresh : c.fresh = true)
    (hinit : resetTable c.args = c.args)
    (h : Command.parse c argv = (.ok m, c')) :
    Command.parse c' argv = (.ok m, c')
      ∧ c'.fresh = false ∧ resetTable c'.args = c.args := by
  simp only [Command.parse] at h
  rw [if_pos hfresh] at h
  rcases hr : runParse c.args argv with ⟨t, r⟩
  simp only [hr] at h
  injection h with h1 h2
  subst h1
  subst h2
  have hres : resetTable t = c.args := by
    have h3 := runParse_reset c.args argv
    rw [hr] at h3
    rw [hinit] at h3
    exact h3
  refine ⟨?_, rfl, hres⟩
  simp only [Command.parse]
  rw [if_neg (by simp)]
  rw [hres, hr]

/-- A one-flag schema for exercising repeated parsing. -/
def c9args : List (JStr × Arg) :=
  [("v".toList, { flags := ["v".toList] })]

/-- A fresh command over `c9args`. -/
def c9cmd : Command := { args := mkCommandD c9args, fresh := true }

/-- The mutated instance returned by the first parse of `["-v"]`. -/
def c9cmd2 : Command :=
  { args := (runParse (mkCommandD c9args) ["-v".toList]).1, fresh := false }

theorem claim9_witness :
    c9cmd.fresh = true ∧ resetTable c9cmd.args = c9cmd.args ∧
    Command.parse c9cmd ["-v".toList]
      = (.ok [("v".toList, .count 1)], c9cmd2) ∧
    (Command.parse c9cmd2 ["-v".toList]
        = (.ok [("v".toList, .count 1)], c9cmd2)
      ∧ c9cmd2.fresh = false ∧ resetTable c9cmd2.args = c9cmd.args) :=
  ⟨rfl, rfl, rfl,
   claim9_reparse c9cmd ["-v".toList] [("v".toList, .count 1)] c9cmd2
     rfl rfl rfl⟩

end Clad
